import Mathlib

/-!
Verification of the npm-graph dependency scanner (TypeScript sources under
`src/`).  The development shallowly embeds the scanner pipeline
(`DependencyScanner`), the utility version comparator (`Utils`), and the
registry client's own comparator (`NpmRegistryService`) as executable Lean
functions, and proves or refutes the frozen specification claims about them.

JavaScript-specific primitives (`parseInt`, `Number`, `String.prototype.split`,
`path.basename`, object iteration order) are modelled explicitly; machine
floats never influence the verified fields (the only fractional value, the
presentational node size, is represented exactly in tenths).
-/

namespace NpmGraph

/-- Splits a character list at every occurrence of `c`, with JavaScript
`String.prototype.split` semantics: the empty string yields `[""]`, and
separators at the ends or adjacent to each other yield empty segments. -/
def splitOnChar (c : Char) : List Char → List (List Char)
  | [] => [[]]
  | x :: xs =>
    match splitOnChar c xs with
    | r :: rs => if x = c then [] :: r :: rs else (x :: r) :: rs
    | [] => [[]]

/-- Numeric value of a digit run. -/
def digitsVal (cs : List Char) : Nat :=
  cs.foldl (fun a c => a * 10 + (c.toNat - 48)) 0

/-- Model of JavaScript `parseInt(s, 10)`: skip leading whitespace, accept an
optional sign, then read the longest digit prefix; `none` models `NaN`
(no digits found). -/
def parseIntJS (cs : List Char) : Option Int :=
  let cs := cs.dropWhile (fun c => c.isWhitespace)
  match cs with
  | '-' :: rest =>
    let d := rest.takeWhile (fun c => c.isDigit)
    if d.isEmpty then none else some (-(digitsVal d : Int))
  | '+' :: rest =>
    let d := rest.takeWhile (fun c => c.isDigit)
    if d.isEmpty then none else some (digitsVal d : Int)
  | _ =>
    let d := cs.takeWhile (fun c => c.isDigit)
    if d.isEmpty then none else some (digitsVal d : Int)

/-- Model of the JavaScript idiom `parseInt(s, 10) || 0`: `NaN` becomes `0`
(`0` itself is unchanged by `|| 0`). -/
def parseIntOr0 (cs : List Char) : Int :=
  (parseIntJS cs).getD 0

/-- Model of JavaScript `Number(s)` restricted to the integer-valued strings
that arise for version components (which never contain `.`): an empty or
whitespace-only string is `0`, an optional sign followed by digits only is
that integer, anything else is `NaN` (`none`). -/
def numberJS (cs : List Char) : Option Int :=
  let cs := cs.dropWhile (fun c => c.isWhitespace)
  let cs := (cs.reverse.dropWhile (fun c => c.isWhitespace)).reverse
  match cs with
  | [] => some 0
  | '-' :: rest => if rest ≠ [] ∧ rest.all (fun c => c.isDigit) then some (-(digitsVal rest : Int)) else none
  | '+' :: rest => if rest ≠ [] ∧ rest.all (fun c => c.isDigit) then some (digitsVal rest : Int) else none
  | l => if l.all (fun c => c.isDigit) then some (digitsVal l : Int) else none

/-- JavaScript `a !== b` on array elements that are either `undefined`
(out-of-bounds index, outer `none`), `NaN` (inner `none`) or a number:
`undefined !== undefined` is `false`, while `NaN !== x` is `true` for
every `x`, including `NaN` itself. -/
def jsStrictNeq : Option (Option Int) → Option (Option Int) → Bool
  | none, none => false
  | some none, _ => true
  | _, some none => true
  | some (some a), some (some b) => a ≠ b
  | none, some (some _) => true
  | some (some _), none => true

/-- JavaScript `a !== b` where the elements are `undefined` or a plain
number (the `parseInt(…) || 0` pipelines never produce `NaN`). -/
def jsNeqNum : Option Int → Option Int → Bool
  | none, none => false
  | some a, some b => a ≠ b
  | _, _ => true

/-- Model of `version.replace(/^v/, '')`: strips one leading lowercase `v`
(the regex is case-sensitive, so `V` is not stripped). -/
def stripV (s : String) : String :=
  match s.data with
  | 'v' :: rest => String.mk rest
  | _ => s

/-- Tail of the `Utils.compareVersions` loop once the left side is
exhausted: remaining right components are compared against `0`. -/
def cmpTailU : List Int → Int
  | [] => 0
  | b :: bs => if (0 : Int) > b then 1 else if (0 : Int) < b then 2 else cmpTailU bs

/-- The comparison loop shared by `Utils.compareVersions`
(`src/utils/index.ts`): component-wise left to right, padding the shorter
side with `0`; returns `1` when the left side is greater, `2` when it is
smaller, `0` when all compared components are equal. -/
def cmpPartsU : List Int → List Int → Int
  | [], bs => cmpTailU bs
  | a :: as, [] => if a > 0 then 1 else if a < 0 then 2 else cmpPartsU as []
  | a :: as, b :: bs => if a > b then 1 else if a < b then 2 else cmpPartsU as bs

/-- Numeric components of a version string for `Utils.compareVersions`:
split on `.`, drop a pre-release tail (`split('-')[0]`) from each component,
then `parseInt(…, 10) || 0`. -/
def versionParts (s : String) : List Int :=
  (splitOnChar '.' s.data).map (fun part => parseIntOr0 ((splitOnChar '-' part).headD []))

/-- `Utils.compareVersions` (`src/utils/index.ts`): returns `1` if the first
version is greater, `2` if it is smaller, `0` if equal.  A single leading
lowercase `v` is stripped; a version with a pre-release suffix (containing
`-`) is smaller than one without; otherwise the numeric components decide. -/
def compareVersions (version1 version2 : String) : Int :=
  let v1 := stripV version1
  let v2 := stripV version2
  let v1HasPreRelease := v1.data.contains '-'
  let v2HasPreRelease := v2.data.contains '-'
  if v1HasPreRelease && !v2HasPreRelease then 2
  else if !v1HasPreRelease && v2HasPreRelease then 1
  else cmpPartsU (versionParts v1) (versionParts v2)

/-- `Utils.isVersionOutdated`: `current` is outdated iff
`compareVersions current latest` returns `2` (current smaller). -/
def isVersionOutdated (current latest : String) : Bool :=
  compareVersions current latest == 2

/-- The update-type classification shared by both comparator families. -/
inductive UpdateType where
  | patch
  | minor
  | major
  | none
deriving DecidableEq, Repr

/-- `Utils.getUpdateType` (`src/utils/index.ts`): `none` unless
`isVersionOutdated`; otherwise the raw strings (no `v`-strip, no suffix
strip) are split on `.` and mapped through `Number`, and index 0, then
index 1 are compared with `!==` (`NaN` compares unequal to everything,
including itself); first difference decides `major`/`minor`, else `patch`. -/
def getUpdateType (current latest : String) : UpdateType :=
  if !isVersionOutdated current latest then .none
  else
    let currentParts := (splitOnChar '.' current.data).map numberJS
    let latestParts := (splitOnChar '.' latest.data).map numberJS
    if jsStrictNeq currentParts[0]? latestParts[0]? then .major
    else if jsStrictNeq currentParts[1]? latestParts[1]? then .minor
    else .patch

/-- Numeric components used by the registry client's own comparator
(`NpmRegistryService.compareVersions`): strip a leading lowercase `v`,
split on `.`, `parseInt(…, 10) || 0`.  No pre-release handling at all. -/
def regVersionParts (s : String) : List Int :=
  (splitOnChar '.' (stripV s).data).map parseIntOr0

/-- Tail of the registry comparison loop once the left side is exhausted. -/
def cmpTailR : List Int → Int
  | [] => 0
  | b :: bs => if (0 : Int) > b then 1 else if (0 : Int) < b then -1 else cmpTailR bs

/-- The comparison loop of `NpmRegistryService.compareVersions`: returns
`1`/`-1`/`0` (left greater / left smaller / equal), padding with `0`. -/
def cmpPartsR : List Int → List Int → Int
  | [], bs => cmpTailR bs
  | a :: as, [] => if a > 0 then 1 else if a < 0 then -1 else cmpPartsR as []
  | a :: as, b :: bs => if a > b then 1 else if a < b then -1 else cmpPartsR as bs

/-- `NpmRegistryService.compareVersions` (`src/services/npmRegistryService.ts`):
purely numeric semver comparison returning `1`/`-1`/`0`; unlike
`Utils.compareVersions` it has no pre-release rule. -/
def regCompareVersions (version1 version2 : String) : Int :=
  cmpPartsR (regVersionParts version1) (regVersionParts version2)

/-- `NpmRegistryService.getUpdateType`: `none` when its own comparator says
equal; otherwise compares the `parseInt || 0` components at index 0 then 1
(`undefined` at an out-of-range index compares equal to `undefined`). -/
def regGetUpdateType (current latest : String) : UpdateType :=
  if regCompareVersions current latest == 0 then .none
  else
    let currentParts := regVersionParts current
    let latestParts := regVersionParts latest
    if jsNeqNum currentParts[0]? latestParts[0]? then .major
    else if jsNeqNum currentParts[1]? latestParts[1]? then .minor
    else .patch


/-- Model of `path.basename` for the paths that occur in this code base:
the last nonempty `/`-separated segment (the fringe cases `""` and `"/"`
are returned unchanged, matching Node for `""` and `"/"`). -/
def basename (s : String) : String :=
  match ((splitOnChar '/' s.data).filter (fun seg => seg ≠ [])).getLast? with
  | some seg => String.mk seg
  | none => s

/-- `Utils.generateDependencyId`: `` `${name}@${version}-${basename source}` ``. -/
def generateDependencyId (name version source : String) : String :=
  name ++ "@" ++ version ++ "-" ++ basename source

/-- `DependencyNode.status` (`src/types/index.ts` union). -/
inductive Status where
  | upToDate
  | outdated
  | vulnerable
  | conflict
deriving DecidableEq, Repr

/-- `DependencyNode.type`: the manifest section that introduced a node. -/
inductive DepType where
  | dependency
  | devDependency
  | peerDependency
  | optionalDependency
deriving DecidableEq, Repr

/-- `DependencyEdge.type`. -/
inductive EdgeType where
  | direct
  | transitive
deriving DecidableEq, Repr

/-- `Utils.getStatusColor`: the fixed status → colour mapping (the `default`
branch of the `switch` is unreachable, the union being exhaustive). -/
def getStatusColor : Status → String
  | .upToDate => "#4CAF50"
  | .outdated => "#FF9800"
  | .vulnerable => "#F44336"
  | .conflict => "#2196F3"

/-- `DependencyScanner.getEdgeColor`. -/
def getEdgeColor : DepType → String
  | .dependency => "#4CAF50"
  | .devDependency => "#FF9800"
  | .peerDependency => "#2196F3"
  | .optionalDependency => "#9C27B0"

/-- A dependency node.  The `metadata` object of the TypeScript interface is
omitted: the code never populates it.  `size10` is the JavaScript `size`
multiplied by 10, so that the `* 0.8`-style type scalings stay exact
integers. -/
structure DependencyNode where
  id : String
  name : String
  version : String
  latestVersion : Option String
  type : DepType
  status : Status
  source : String
  depth : Nat
  size10 : Int
  color : String
deriving DecidableEq, Repr

/-- A dependency edge.  `source`/`target` are node-id strings (the scanner
never stores node objects in them; only the d3 frontend rewrites them). -/
structure DependencyEdge where
  id : String
  source : String
  target : String
  type : EdgeType
  version : String
  color : String
  width : Nat
deriving DecidableEq, Repr

/-- Graph metadata.  `scanTime : Date` is omitted (wall-clock time). -/
structure GraphMetadata where
  totalPackages : Nat
  totalDependencies : Nat
  conflicts : Nat
  vulnerabilities : Nat
  outdated : Nat
  workspaceRoots : List String
deriving DecidableEq, Repr

/-- The aggregate scan result. -/
structure DependencyGraph where
  nodes : List DependencyNode
  edges : List DependencyEdge
  metadata : GraphMetadata
deriving DecidableEq, Repr

/-- One entry of the modern (npm v7+) `packages` map of a lockfile.
Records (`Record<string, string>` etc.) are modelled as association lists
in object-key insertion order. -/
structure LockPackageInfo where
  name : Option String
  version : String
  dependencies : Option (List (String × String))
deriving DecidableEq, Repr

/-- One entry of the legacy nested `dependencies` map of a lockfile.  An
absent nested map is modelled as `[]`: the code only ever iterates or
guard-checks it, and iterating an empty map is identical to skipping an
absent one. -/
inductive LegacyDependency where
  | mk (version : String) (dependencies : List (String × LegacyDependency))

/-- Resolved version of a legacy lockfile entry. -/
def LegacyDependency.version : LegacyDependency → String
  | .mk v _ => v

/-- Nested dependency map of a legacy lockfile entry. -/
def LegacyDependency.dependencies : LegacyDependency → List (String × LegacyDependency)
  | .mk _ d => d

/-- `package-lock.json` shape: modern flat `packages` map and/or legacy
nested `dependencies` map. -/
structure PackageLockJson where
  packages : Option (List (String × LockPackageInfo))
  dependencies : Option (List (String × LegacyDependency))

/-- `package.json` shape: the four dependency sections. -/
structure PackageJson where
  name : Option String
  dependencies : Option (List (String × String))
  devDependencies : Option (List (String × String))
  peerDependencies : Option (List (String × String))
  optionalDependencies : Option (List (String × String))
deriving DecidableEq, Repr

/-- `WorkspaceInfo` as produced by `DependencyScanner.scanWorkspaceRoot`. -/
structure WorkspaceInfo where
  root : String
  name : String
  packageJson : PackageJson
  packageLockJson : Option PackageLockJson
  dependencies : List DependencyNode

/-- `ScanOptions`: every field optional; `none` means "not supplied". -/
structure ScanOptions where
  maxDepth : Option Int := none
  includeDevDependencies : Option Bool := none
  includePeerDependencies : Option Bool := none
  includeOptionalDependencies : Option Bool := none
  enableVersionChecking : Option Bool := none
deriving DecidableEq, Repr

/-- What the registry returns for one package (`NpmPackageInfo`): the
`dist-tags.latest` field.  The `time` map only feeds the unmodelled
`publishedDate`.  The registry collaborator is a pure oracle; `none`
models a failed `getPackageInfo` fetch (the code catches and returns
`null`). -/
structure NpmPackageInfo where
  latest : Option String
deriving DecidableEq, Repr

/-- The registry collaborator consumed by the scanner. -/
abbrev Registry := String → Option NpmPackageInfo

/-- `NpmRegistryService.getLatestVersion`:
`packageInfo?.['dist-tags']?.latest || null` — a missing package, a missing
tag, or an empty-string tag (falsy) all yield `null`. -/
def getLatestVersion (reg : Registry) (packageName : String) : Option String :=
  match reg packageName with
  | none => none
  | some pi =>
    match pi.latest with
    | none => none
    | some l => if l = "" then none else some l

/-- `VersionInfo` minus the unmodelled `publishedDate : Date`. -/
structure VersionInfo where
  current : String
  latest : String
  isOutdated : Bool
  updateType : UpdateType
deriving DecidableEq, Repr

/-- `NpmRegistryService.getVersionInfo`: on a missing latest version the
package is reported non-outdated with `latest` echoing `current`;
otherwise outdatedness is decided by the registry's own comparator
(`regCompareVersions … < 0`). -/
def getVersionInfo (reg : Registry) (packageName currentVersion : String) : VersionInfo :=
  match getLatestVersion reg packageName with
  | none =>
    { current := currentVersion, latest := currentVersion, isOutdated := false, updateType := .none }
  | some latestVersion =>
    { current := currentVersion
      latest := latestVersion
      isOutdated := regCompareVersions currentVersion latestVersion < 0
      updateType := regGetUpdateType currentVersion latestVersion }

/-- The per-node body of `DependencyScanner.checkOutdatedPackages`: nodes
already marked `conflict` are skipped; otherwise, if the registry reports
the node outdated, status, colour and `latestVersion` are updated. -/
def stalenessOne (reg : Registry) (node : DependencyNode) : DependencyNode :=
  if node.status = .conflict then node
  else
    let versionInfo := getVersionInfo reg node.name node.version
    if versionInfo.isOutdated then
      { node with
        status := .outdated
        color := getStatusColor .outdated
        latestVersion := some versionInfo.latest }
    else node

/-- The batch slicing of `checkOutdatedPackages` (`slice(i, i + 10)` for
`i = 0, 10, …`), with an explicit structural bound so the definition
reduces in the kernel. -/
def toBatchesAux : Nat → List DependencyNode → List (List DependencyNode)
  | 0, _ => []
  | _, [] => []
  | n + 1, l => l.take 10 :: toBatchesAux n (l.drop 10)

/-- Batches of size 10 over the node list. -/
def toBatches (l : List DependencyNode) : List (List DependencyNode) :=
  toBatchesAux l.length l

/-- `DependencyScanner.checkOutdatedPackages`: the staleness pass.  Each
batch maps `stalenessOne` over its nodes (every node is mutated
independently, so the concurrent fan-out/join per batch and the inter-batch
delay have no observable effect on the result). -/
def checkOutdatedPackages (reg : Registry) (nodes : List DependencyNode) : List DependencyNode :=
  (toBatches nodes).flatMap (fun batch => batch.map (stalenessOne reg))

/-- `DependencyScanner.findPackageInLockFile`: the legacy `dependencies`
map is consulted first, then the modern `packages` map under the key
`node_modules/<name>`.  Only the `version` field of the found record is
ever consumed by the caller, so just the version is returned. -/
def findPackageInLockFile (packageName : String) (lock : PackageLockJson) : Option String :=
  match lock.dependencies.bind (fun deps => deps.lookup packageName) with
  | some d => some d.version
  | none =>
    match lock.packages.bind (fun pkgs => pkgs.lookup ("node_modules/" ++ packageName)) with
    | some info => some info.version
    | none => none

/-- `DependencyScanner.determinePackageStatus`: any textual difference
between the declared range and the resolved version is a `conflict`; the
`outdated` branch is dead code, since `Utils.compareVersions` never
returns a negative number (the guard also requires a truthy, i.e.
nonempty, `latestVersion`). -/
def determinePackageStatus (requiredVersion actualVersion : String)
    (latestVersion : Option String) : Status :=
  if requiredVersion ≠ actualVersion then .conflict
  else
    match latestVersion with
    | some l => if l ≠ "" ∧ compareVersions actualVersion l < 0 then .outdated else .upToDate
    | none => .upToDate

/-- `DependencyScanner.calculateNodeSize`, scaled by 10 to keep the
fractional type factors (`0.8`, `0.9`, `0.7`) exact. -/
def calculateNodeSize10 (depth : Nat) (type : DepType) : Int :=
  let baseSize : Int := if depth > 0 then max 12 (20 - 2 * (depth : Int)) else 20
  match type with
  | .dependency => baseSize * 10
  | .devDependency => baseSize * 8
  | .peerDependency => baseSize * 9
  | .optionalDependency => baseSize * 7

/-- `DependencyScanner.createDependencyNode`.  The resolved version comes
from the lockfile when available; when `enableVersionChecking` is not
`false` the registry is consulted for `latestVersion` and the status is
decided by `determinePackageStatus`.  The `try`/`catch` wrappers are
unreachable under a total registry oracle (a failed fetch is the oracle
returning `none`, which the code maps to "no information"). -/
def createDependencyNode (reg : Registry) (name version : String) (type : DepType)
    (sourcePath : String) (packageLockJson : Option PackageLockJson) (depth : Nat)
    (options : ScanOptions) : DependencyNode :=
  let actualVersion :=
    match packageLockJson with
    | some lock => (findPackageInLockFile name lock).getD version
    | none => version
  let checked : Status × Option String :=
    if options.enableVersionChecking ≠ some false then
      match reg name with
      | some packageInfo =>
        (determinePackageStatus version actualVersion packageInfo.latest, packageInfo.latest)
      | none => (.upToDate, none)
    else (.upToDate, none)
  { id := generateDependencyId name actualVersion sourcePath
    name := name
    version := actualVersion
    latestVersion := checked.2
    type := type
    status := checked.1
    source := sourcePath
    depth := depth
    size10 := calculateNodeSize10 depth type
    color := getStatusColor checked.1 }

/-- One key/value update of a JavaScript object used as a map: existing
keys are overwritten in place, new keys are appended (object insertion
order). -/
def objSet (o : List (String × String)) (kv : String × String) : List (String × String) :=
  if o.any (fun p => p.1 = kv.1) then
    o.map (fun p => if p.1 = kv.1 then (p.1, kv.2) else p)
  else o ++ [kv]

/-- JavaScript `Object.assign(dst, src)` on string-valued objects. -/
def objAssign (dst src : List (String × String)) : List (String × String) :=
  src.foldl objSet dst

/-- `DependencyScanner.findTransitiveDependencies`: merge the dependency
maps of every modern `packages` entry whose `name` field equals the
package, then of the top-level legacy entry of that name.  (The guards
`pkgInfo.dependencies &&` in the source only skip empty merges, which are
no-ops, so they are absorbed into `getD []`.) -/
def findTransitiveDependencies (packageName : String) (lock : PackageLockJson) :
    List (String × String) :=
  let fromPackages :=
    match lock.packages with
    | none => []
    | some pkgs =>
      pkgs.foldl (fun acc entry =>
        if entry.2.name = some packageName then objAssign acc (entry.2.dependencies.getD [])
        else acc) []
  match lock.dependencies with
  | none => fromPackages
  | some deps =>
    match deps.lookup packageName with
    | some d =>
      -- The legacy nested map holds `LegacyDependency` objects, not version
      -- strings; `Object.assign` copies the objects and every later use
      -- coerces them with a template literal or string comparison, where a
      -- plain object renders as `[object Object]`.
      objAssign fromPackages (d.dependencies.map (fun p => (p.1, "[object Object]")))
    | none => fromPackages

/-- One step of the inner loop of
`DependencyScanner.processTransitiveDependencies`: the per-level
`processedPackages` set and the live `allDependencies` array are threaded
through; a freshly discovered package is appended at depth
`currentDepth`. -/
def transStep (reg : Registry) (lock : PackageLockJson) (sourcePath : String)
    (options : ScanOptions) (currentDepth : Nat)
    (st : List DependencyNode × List String) (nv : String × String) :
    List DependencyNode × List String :=
  let depId := generateDependencyId nv.1 nv.2 sourcePath
  if depId ∈ st.2 then st
  else
    let processed := depId :: st.2
    if st.1.any (fun n => n.id = depId) then (st.1, processed)
    else
      (st.1 ++ [createDependencyNode reg nv.1 nv.2 .dependency sourcePath (some lock)
        currentDepth options], processed)

/-- `DependencyScanner.processTransitiveDependencies`.  The JavaScript
`for…of` iterates the live array, but every node appended during a level
has `depth = currentDepth ≠ currentDepth - 1` and is skipped by the depth
filter, so iterating the level's snapshot (while checking membership
against the live array) is an exact model.  The structural `fuel`
argument bounds the level recursion and is instantiated so that it never
runs out (`maxDepth.toNat` levels at most). -/
def processTransitiveDependencies (reg : Registry) (lock : PackageLockJson)
    (sourcePath : String) (options : ScanOptions) :
    Nat → Nat → Int → List DependencyNode → List DependencyNode
  | 0, _, _, all => all
  | fuel + 1, currentDepth, maxDepth, all =>
    if (currentDepth : Int) ≥ maxDepth then all
    else
      let stepped :=
        (all.foldl (fun st dep =>
          if dep.depth = currentDepth - 1 then
            (findTransitiveDependencies dep.name lock).foldl
              (transStep reg lock sourcePath options currentDepth) st
          else st) (all, ([] : List String))).1
      if (currentDepth : Int) + 1 < maxDepth then
        processTransitiveDependencies reg lock sourcePath options fuel (currentDepth + 1)
          maxDepth stepped
      else stepped

/-- Direct-dependency nodes of `parseDependenciesWithDepth`: the four
manifest sections in fixed order, dev/peer/optional filtered by the
options (absent flags default to inclusion), each entry becoming a node
at depth 0. -/
def directNodes (reg : Registry) (packageJson : PackageJson)
    (packageLockJson : Option PackageLockJson) (sourcePath : String)
    (options : ScanOptions) : List DependencyNode :=
  let sections : List (Option (List (String × String)) × DepType × Bool) :=
    [(packageJson.dependencies, .dependency, true),
     (packageJson.devDependencies, .devDependency, options.includeDevDependencies ≠ some false),
     (packageJson.peerDependencies, .peerDependency, options.includePeerDependencies ≠ some false),
     (packageJson.optionalDependencies, .optionalDependency,
       options.includeOptionalDependencies ≠ some false)]
  sections.flatMap (fun sec =>
    if sec.2.2 then
      (sec.1.getD []).map (fun nv =>
        createDependencyNode reg nv.1 nv.2 sec.2.1 sourcePath packageLockJson 0 options)
    else [])

/-- `DependencyScanner.parseDependenciesWithDepth`: direct nodes, then a
transitive walk when `maxDepth > 1` and a lockfile exists.  The JavaScript
`options.maxDepth || 3` turns an absent or `0` depth into `3` (but keeps
negative values). -/
def parseDependenciesWithDepth (reg : Registry) (packageJson : PackageJson)
    (packageLockJson : Option PackageLockJson) (sourcePath : String)
    (options : ScanOptions) : List DependencyNode :=
  let maxDepth : Int :=
    match options.maxDepth with
    | none => 3
    | some d => if d = 0 then 3 else d
  let direct := directNodes reg packageJson packageLockJson sourcePath options
  match packageLockJson with
  | some lock =>
    if maxDepth > 1 then
      processTransitiveDependencies reg lock sourcePath options maxDepth.toNat 1 maxDepth direct
    else direct
  | none => direct

/-- Status/colour escalation applied to every member of a conflicting name
group by `processNodesAndConflicts`. -/
def markConflict (n : DependencyNode) : DependencyNode :=
  { n with status := .conflict, color := getStatusColor .conflict }

/-- Names in first-seen order: the key order of the JavaScript
`Map<string, DependencyNode[]>` built by `processNodesAndConflicts`. -/
def namesInOrder (nodes : List DependencyNode) : List String :=
  nodes.foldl (fun acc n => if n.name ∈ acc then acc else acc ++ [n.name]) []

/-- The name group of `name`: the nodes pushed into the map bucket, in
aggregation order. -/
def groupOf (nodes : List DependencyNode) (name : String) : List DependencyNode :=
  nodes.filter (fun n => n.name = name)

/-- `new Set(nodeGroup.map(n => n.version)).size`. -/
def distinctVersions (group : List DependencyNode) : Nat :=
  ((group.map (fun n => n.version)).dedup).length

/-- `DependencyScanner.processNodesAndConflicts`, returning
`(uniqueNodes, conflictNodes)`.  A bucket with more than one distinct
version (which forces bucket size ≥ 2, so the singleton early-exit of the
source is subsumed) has all its members mutated to `conflict` and pushed
onto `conflictNodes`, and its (mutated) first member kept; every other
nonempty bucket keeps its first member unchanged. -/
def processNodesAndConflicts (nodes : List DependencyNode) :
    List DependencyNode × List DependencyNode :=
  (namesInOrder nodes).foldl (fun acc name =>
    let nodeGroup := groupOf nodes name
    if 1 < distinctVersions nodeGroup then
      (acc.1 ++ (nodeGroup.take 1).map markConflict, acc.2 ++ nodeGroup.map markConflict)
    else
      (acc.1 ++ nodeGroup.take 1, acc.2)) ([], [])

/-- Adjacency list of `calculateNodeDepths`: targets of the edges leaving
`v`, in edge order. -/
def adjOf (edges : List DependencyEdge) (v : String) : List String :=
  (edges.filter (fun e => e.source = v)).map (fun e => e.target)

/-- Ids of the BFS roots of `calculateNodeDepths`: nodes that are never an
edge target. -/
def rootIdsOf (nodes : List DependencyNode) (edges : List DependencyEdge) : List String :=
  (nodes.filter (fun n => n.id ∉ edges.map (fun e => e.target))).map (fun n => n.id)

/-- The relaxation step of the BFS inner loop: a child whose recorded depth
is absent or larger than `k + 1` is re-queued with the improved depth. -/
def bfsRelax (k : Nat) (st : List (String × Nat) × (String → Option Nat)) (c : String) :
    List (String × Nat) × (String → Option Nat) :=
  let newDepth := k + 1
  match st.2 c with
  | some currentDepth =>
    if newDepth < currentDepth then
      (st.1 ++ [(c, newDepth)], fun x => if x = c then some newDepth else st.2 x)
    else st
  | none => (st.1 ++ [(c, newDepth)], fun x => if x = c then some newDepth else st.2 x)

/-- The `while (queue.length > 0)` loop of `calculateNodeDepths`: pop from
the front, skip visited ids, otherwise mark visited and relax all
children.  `fuel` is a structural bound instantiated (via `bfsPotential`)
large enough that the queue always empties before it runs out. -/
def bfsLoop (adj : String → List String) :
    Nat → List (String × Nat) → List String → (String → Option Nat) → (String → Option Nat)
  | 0, _, _, d => d
  | _ + 1, [], _, d => d
  | fuel + 1, (v, k) :: rest, visited, d =>
    if v ∈ visited then bfsLoop adj fuel rest visited d
    else
      let st := (adj v).foldl (bfsRelax k) (rest, d)
      bfsLoop adj fuel st.1 (v :: visited) st.2

/-- Every id the BFS can ever enqueue: initial roots are node ids, and
every push targets an edge target. -/
def bfsUniverse (nodes : List DependencyNode) (edges : List DependencyEdge) : List String :=
  nodes.map (fun n => n.id) ++ edges.map (fun e => e.target)

/-- Termination potential of the BFS loop: unvisited universe ids weighted
by `1 + out-degree`, plus the queue length.  Every loop iteration strictly
decreases it. -/
def bfsPotential (adj : String → List String) (uni : List String) (visited : List String)
    (q : List (String × Nat)) : Nat :=
  ((uni.filter (fun v => v ∉ visited)).map (fun v => 1 + (adj v).length)).sum + q.length

/-- The final `depthMap` of `calculateNodeDepths`: BFS from the
never-targeted nodes over the edge list. -/
def bfsResult (nodes : List DependencyNode) (edges : List DependencyEdge) :
    String → Option Nat :=
  let adj := adjOf edges
  let roots := rootIdsOf nodes edges
  let initQ := roots.map (fun r => (r, 0))
  let initD : String → Option Nat := fun x => if x ∈ roots then some 0 else none
  let fuel := bfsPotential adj (bfsUniverse nodes edges) [] initQ
  bfsLoop adj fuel initQ [] initD

/-- `DependencyScanner.calculateNodeDepths`: BFS from the never-targeted
nodes over the edge list, then `depthMap.get(node.id) || 0` applied to
every node. -/
def calculateNodeDepths (nodes : List DependencyNode) (edges : List DependencyEdge) :
    List DependencyNode :=
  nodes.map (fun n => { n with depth := (bfsResult nodes edges n.id).getD 0 })

/-- Resolved name of a modern lockfile entry:
`packageInfo.name || path.basename(packagePath)` (an empty `name` is falsy). -/
def resolvedEntryName (info : LockPackageInfo) (packagePath : String) : String :=
  match info.name with
  | some n => if n = "" then basename packagePath else n
  | none => basename packagePath

/-- The modern (`packages` map) half of
`DependencyScanner.buildEdgesFromPackageLock`: every non-root entry with a
dependency list contributes one `transitive` edge per dependency whose
source and target names both resolve to workspace nodes.  No self-loop
check is performed. -/
def modernEdges (lock : PackageLockJson) (workspaceNodes : List DependencyNode) :
    List DependencyEdge :=
  (lock.packages.getD []).flatMap (fun entry =>
    if entry.1 = "" then []
    else
      match entry.2.dependencies with
      | none => []
      | some deps =>
        match workspaceNodes.find? (fun n => n.name = resolvedEntryName entry.2 entry.1) with
        | none => []
        | some sourceNode =>
          deps.filterMap (fun dv =>
            (workspaceNodes.find? (fun n => n.name = dv.1)).map (fun targetNode =>
              { id := sourceNode.id ++ "->" ++ targetNode.id
                source := sourceNode.id
                target := targetNode.id
                type := EdgeType.transitive
                version := dv.2
                color := "#999"
                width := 1 })))

/-- `DependencyScanner.processLegacyDependencies`
(`src/services/dependencyScanner.ts`, scanner with options): every legacy
entry whose name resolves to a workspace node contributes one edge from
the fixed synthetic id `legacy-root`; nested maps are processed
recursively, siblings afterwards. -/
def processLegacyDependencies :
    List (String × LegacyDependency) → List DependencyNode → List DependencyEdge
  | [], _ => []
  | (depName, .mk ver subs) :: rest, workspaceNodes =>
    (match workspaceNodes.find? (fun n => n.name = depName) with
     | some targetNode =>
       [{ id := "legacy-" ++ depName
          source := "legacy-root"
          target := targetNode.id
          type := EdgeType.transitive
          version := ver
          color := "#999"
          width := 1 }]
     | none => []) ++
    processLegacyDependencies subs workspaceNodes ++
    processLegacyDependencies rest workspaceNodes

/-- `DependencyScanner.buildEdgesFromPackageLock`: modern edges first, then
the legacy map when present. -/
def buildEdgesFromPackageLock (lock : PackageLockJson)
    (workspaceNodes : List DependencyNode) : List DependencyEdge :=
  modernEdges lock workspaceNodes ++
    (match lock.dependencies with
     | some deps => processLegacyDependencies deps workspaceNodes
     | none => [])

/-- `DependencyScanner.buildBasicEdges` (manifest-only fallback): one
`direct` edge from the synthetic `root-<basename>` id to every declared
dependency that resolves to a workspace node, over all four sections
(no option filtering here). -/
def buildBasicEdges (packageJson : PackageJson) (sourcePath : String)
    (workspaceNodes : List DependencyNode) : List DependencyEdge :=
  let rootId := "root-" ++ basename sourcePath
  let sections : List (Option (List (String × String)) × DepType) :=
    [(packageJson.dependencies, .dependency),
     (packageJson.devDependencies, .devDependency),
     (packageJson.peerDependencies, .peerDependency),
     (packageJson.optionalDependencies, .optionalDependency)]
  sections.flatMap (fun sec =>
    (sec.1.getD []).filterMap (fun dv =>
      (workspaceNodes.find? (fun n => n.name = dv.1)).map (fun targetNode =>
        { id := rootId ++ "->" ++ targetNode.id
          source := rootId
          target := targetNode.id
          type := EdgeType.direct
          version := dv.2
          color := getEdgeColor sec.2
          width := 2 })))

/-- The per-workspace node list used by `buildDependencyGraph`:
`workspace.dependencies.map(dep => ({ ...dep, source: workspace.root }))`. -/
def wsNodes (w : WorkspaceInfo) : List DependencyNode :=
  w.dependencies.map (fun dep => { dep with source := w.root })

/-- The aggregated node list of `buildDependencyGraph`. -/
def aggregatedNodes (workspaces : List WorkspaceInfo) : List DependencyNode :=
  workspaces.flatMap wsNodes

/-- The aggregated edge list of `buildDependencyGraph`: lockfile-based per
workspace when a lockfile exists, manifest-only fallback otherwise. -/
def aggregatedEdges (workspaces : List WorkspaceInfo) : List DependencyEdge :=
  workspaces.flatMap (fun w =>
    match w.packageLockJson with
    | some lock => buildEdgesFromPackageLock lock (wsNodes w)
    | none => buildBasicEdges w.packageJson w.root (wsNodes w))

/-- `DependencyScanner.buildDependencyGraph`: aggregate, deduplicate and
mark conflicts, recompute depths, run the staleness pass (unconditionally
— the options are not consulted here), then assemble the metadata from
the final lists.  `conflicts` counts the `conflictNodes` array, i.e. every
aggregated member of a conflicting group, not the returned nodes. -/
def buildDependencyGraph (reg : Registry) (workspaces : List WorkspaceInfo)
    (_options : ScanOptions) : DependencyGraph :=
  let allNodes := aggregatedNodes workspaces
  let allEdges := aggregatedEdges workspaces
  let processed := processNodesAndConflicts allNodes
  let uniqueNodes := checkOutdatedPackages reg (calculateNodeDepths processed.1 allEdges)
  { nodes := uniqueNodes
    edges := allEdges
    metadata :=
      { totalPackages := uniqueNodes.length
        totalDependencies := allEdges.length
        conflicts := processed.2.length
        vulnerabilities := (uniqueNodes.filter (fun n => n.status = .vulnerable)).length
        outdated := (uniqueNodes.filter (fun n => n.status = .outdated)).length
        workspaceRoots := workspaces.map (fun w => w.root) } }

/-- The collaborators a scan consumes, as pure oracles keyed by workspace
root (the `path.join(root, 'package.json')` suffixing is absorbed into
the reader). -/
structure ScanEnv where
  workspaceRoots : List String
  readPackageJson : String → Option PackageJson
  lockFileExists : String → Bool
  readPackageLock : String → Option PackageLockJson
  registry : Registry

/-- `DependencyScanner.scanWorkspaceRoot`: `null` (dropping the root) when
the manifest is unreadable; the lockfile is read only if it exists, and a
failed lockfile read degrades to "no lockfile". -/
def scanWorkspaceRoot (env : ScanEnv) (rootPath : String) (options : ScanOptions) :
    Option WorkspaceInfo :=
  match env.readPackageJson rootPath with
  | none => none
  | some packageJson =>
    let packageLockJson : Option PackageLockJson :=
      if env.lockFileExists rootPath then env.readPackageLock rootPath else none
    let dependencies := parseDependenciesWithDepth env.registry packageJson packageLockJson
      rootPath options
    some
      { root := rootPath
        name :=
          match packageJson.name with
          | some n => if n = "" then basename rootPath else n
          | none => basename rootPath
        packageJson := packageJson
        packageLockJson := packageLockJson
        dependencies := dependencies }

/-- `DependencyScanner.scanWorkspace`: throws (`Except.error`) exactly when
the collaborator reports no workspace roots; otherwise every root is
scanned (unparsable roots dropped) and the graph is built. -/
def scanWorkspace (env : ScanEnv) (options : ScanOptions) : Except String DependencyGraph :=
  if env.workspaceRoots = [] then .error "No workspace folders found"
  else
    let workspaces := env.workspaceRoots.filterMap (fun root => scanWorkspaceRoot env root options)
    .ok (buildDependencyGraph env.registry workspaces options)

/-! ### Specification-side definitions -/

/-- Specification-side restatement of the amended update-kind rule:
`none` exactly when the current version is not LESS than the latest per
`compareVersions` (so also on GREATER), otherwise the raw `.`-components
under JavaScript `Number` coercion decide `major`/`minor`/`patch`. -/
def updateKindAmended (current latest : String) : UpdateType :=
  if compareVersions current latest ≠ 2 then .none
  else
    let currentParts := (splitOnChar '.' current.data).map numberJS
    let latestParts := (splitOnChar '.' latest.data).map numberJS
    if jsStrictNeq currentParts[0]? latestParts[0]? then .major
    else if jsStrictNeq currentParts[1]? latestParts[1]? then .minor
    else .patch

/-- `reachN edges R m v`: there is a walk of exactly `m` edges from some
id in `R` to `v`.  The minimum such `m` is the minimum number of edges on
any path from `R` to `v`. -/
def reachN (edges : List DependencyEdge) (R : List String) : Nat → String → Prop
  | 0, v => v ∈ R
  | m + 1, v => ∃ e ∈ edges, e.target = v ∧ reachN edges R m e.source

instance reachNDec (edges : List DependencyEdge) (R : List String) :
    (m : Nat) → (v : String) → Decidable (reachN edges R m v)
  | 0, _ => by unfold reachN; infer_instance
  | m + 1, _ => by
    unfold reachN
    have := reachNDec edges R m
    infer_instance

/-- A node as created when the per-node registry check is disabled:
`up-to-date` and without `latestVersion`. -/
def nodeFresh (n : DependencyNode) : Prop :=
  n.status = .upToDate ∧ n.latestVersion = none

/-- The `conflictNodes` contribution of one name bucket of
`processNodesAndConflicts`: the whole bucket, mutated, when it has more
than one distinct version; nothing otherwise. -/
def conflictGroup (nodes : List DependencyNode) (name : String) : List DependencyNode :=
  if 1 < distinctVersions (groupOf nodes name) then (groupOf nodes name).map markConflict
  else []

/-- The `uniqueNodes` contribution of one name bucket of
`processNodesAndConflicts`: the first-seen member, mutated when the
bucket conflicts. -/
def uniquePick (nodes : List DependencyNode) (name : String) : List DependencyNode :=
  if 1 < distinctVersions (groupOf nodes name) then
    ((groupOf nodes name).take 1).map markConflict
  else (groupOf nodes name).take 1

/-- Loop invariant of the BFS of `calculateNodeDepths`, over queue `q`,
visited set `vis` and depth map `d`.  `uni` is a fixed superset of every
id that can ever be enqueued. -/
structure BfsInv (edges : List DependencyEdge) (R : List String) (uni : List String)
    (q : List (String × Nat)) (vis : List String) (d : String → Option Nat) : Prop where
  sound : ∀ v k, d v = some k → reachN edges R k v
  rootsZero : ∀ r ∈ R, d r = some 0
  dom : ∀ v, (d v).isSome = true ↔ (v ∈ vis ∨ ∃ k, (v, k) ∈ q)
  qval : ∀ v k, (v, k) ∈ q → v ∉ vis → d v = some k
  mono : q.Pairwise (fun a b => a.2 ≤ b.2 ∧ b.2 ≤ a.2 + 1)
  visMin : ∀ v ∈ vis, ∀ k, d v = some k → ∀ j, reachN edges R j v → k ≤ j
  visNbr : ∀ v ∈ vis, ∀ k, d v = some k →
    ∀ c ∈ adjOf edges v, ∃ kc, d c = some kc ∧ kc ≤ k + 1
  qsub : ∀ v k, (v, k) ∈ q → v ∈ uni

/-! ### Concrete scan instances used by counterexamples and witnesses -/

/-- A node with id `a` and a stale declaration-time depth. -/
def nodeA0 : DependencyNode :=
  { id := "a", name := "a", version := "1.0.0", latestVersion := none, type := .dependency,
    status := .upToDate, source := "r", depth := 5, size10 := 200,
    color := getStatusColor .upToDate }

/-- A node with id `b` and a stale declaration-time depth. -/
def nodeB0 : DependencyNode :=
  { id := "b", name := "b", version := "1.0.0", latestVersion := none, type := .dependency,
    status := .upToDate, source := "r", depth := 7, size10 := 200,
    color := getStatusColor .upToDate }

/-- The edge `b → a` between the two ids above. -/
def edgeBA : DependencyEdge :=
  { id := "b->a", source := "b", target := "a", type := .transitive, version := "1.0.0",
    color := "#999", width := 1 }

/-- `nodeA0` after depth recomputation. -/
def nodeA1 : DependencyNode := { nodeA0 with depth := 1 }

/-- `nodeB0` after depth recomputation. -/
def nodeB1 : DependencyNode := { nodeB0 with depth := 0 }

/-- Manifest declaring `a@1.0.0` (first conflict workspace). -/
def pjA1 : PackageJson :=
  { name := some "w1", dependencies := some [("a", "1.0.0")], devDependencies := none,
    peerDependencies := none, optionalDependencies := none }

/-- Manifest declaring `a@2.0.0` (second conflict workspace). -/
def pjA2 : PackageJson :=
  { name := some "w2", dependencies := some [("a", "2.0.0")], devDependencies := none,
    peerDependencies := none, optionalDependencies := none }

/-- Two workspace roots resolving the same package name to different
versions; no lockfiles, registry empty. -/
def envConflict : ScanEnv :=
  { workspaceRoots := ["r1", "r2"]
    readPackageJson := fun r => if r = "r1" then some pjA1 else if r = "r2" then some pjA2 else none
    lockFileExists := fun _ => false
    readPackageLock := fun _ => none
    registry := fun _ => none }

/-- Manifest declaring the range `^1.0.0` for `a`. -/
def pjCaret : PackageJson :=
  { name := some "w", dependencies := some [("a", "^1.0.0")], devDependencies := none,
    peerDependencies := none, optionalDependencies := none }

/-- Lockfile resolving `a` to `1.0.1` through the modern `packages` map. -/
def lockA101 : PackageLockJson :=
  { packages := some [("node_modules/a",
      { name := some "a", version := "1.0.1", dependencies := none })]
    dependencies := none }

/-- Registry knowing `a` with latest version `1.0.1`. -/
def regA101 : Registry :=
  fun name => if name = "a" then some { latest := some "1.0.1" } else none

/-- Single root, single declared dependency `a@^1.0.0` resolved by the
lockfile to `1.0.1`, registry latest `1.0.1`. -/
def envCaret : ScanEnv :=
  { workspaceRoots := ["r"]
    readPackageJson := fun r => if r = "r" then some pjCaret else none
    lockFileExists := fun r => r = "r"
    readPackageLock := fun r => if r = "r" then some lockA101 else none
    registry := regA101 }

/-- Manifest declaring `a@1.0.0` only. -/
def pjPlain : PackageJson :=
  { name := some "w", dependencies := some [("a", "1.0.0")], devDependencies := none,
    peerDependencies := none, optionalDependencies := none }

/-- Registry reporting latest `2.0.0` for `a`. -/
def regA2 : Registry :=
  fun name => if name = "a" then some { latest := some "2.0.0" } else none

/-- Single root, dependency `a@1.0.0`, registry latest `2.0.0`, no
lockfile: exercises the staleness pass. -/
def envStale : ScanEnv :=
  { workspaceRoots := ["r"]
    readPackageJson := fun r => if r = "r" then some pjPlain else none
    lockFileExists := fun _ => false
    readPackageLock := fun _ => none
    registry := regA2 }

/-- A pre-release node: resolved version `1.0.0-alpha`. -/
def nodePre : DependencyNode :=
  { id := "a@1.0.0-alpha-r", name := "a", version := "1.0.0-alpha", latestVersion := none,
    type := .dependency, status := .upToDate, source := "r", depth := 0, size10 := 200,
    color := getStatusColor .upToDate }

/-- Registry reporting latest `1.0.0` for `a`. -/
def regA1 : Registry :=
  fun name => if name = "a" then some { latest := some "1.0.0" } else none

/-- Lockfile whose modern `packages` entry for `a` lists `a` itself as a
dependency. -/
def lockSelf : PackageLockJson :=
  { packages := some [("node_modules/a",
      { name := some "a", version := "1.0.0", dependencies := some [("a", "1.0.0")] })]
    dependencies := none }

/-- Single root whose lockfile produces a self-referential modern entry. -/
def envSelfLoop : ScanEnv :=
  { workspaceRoots := ["r"]
    readPackageJson := fun r => if r = "r" then some pjPlain else none
    lockFileExists := fun r => r = "r"
    readPackageLock := fun r => if r = "r" then some lockSelf else none
    registry := fun _ => none }

/-- Manifest declaring `a@1.0.0` and `b@1.0.0` (`b` depends on `a` through
the lockfile below). -/
def pjAB : PackageJson :=
  { name := some "w", dependencies := some [("a", "1.0.0"), ("b", "1.0.0")],
    devDependencies := none, peerDependencies := none, optionalDependencies := none }

/-- Lockfile whose modern entry for `b` lists `a` as a dependency. -/
def lockBA : PackageLockJson :=
  { packages := some [("node_modules/b",
      { name := some "b", version := "1.0.0", dependencies := some [("a", "1.0.0")] })]
    dependencies := none }

/-- Single root with nodes `a`, `b` and a lockfile edge `b → a`. -/
def envChain : ScanEnv :=
  { workspaceRoots := ["r"]
    readPackageJson := fun r => if r = "r" then some pjAB else none
    lockFileExists := fun r => r = "r"
    readPackageLock := fun r => if r = "r" then some lockBA else none
    registry := fun _ => none }

/-- The conflict environment with an unreadable extra root in front. -/
def envDrop : ScanEnv :=
  { envConflict with workspaceRoots := ["bad", "r1", "r2"] }

/-- An environment whose every root has an unreadable manifest. -/
def envAllBad : ScanEnv :=
  { envConflict with workspaceRoots := ["x", "y"] }

/-- The workspaces produced by scanning `envConflict`. -/
def wsConflict : List WorkspaceInfo :=
  envConflict.workspaceRoots.filterMap (fun r => scanWorkspaceRoot envConflict r {})

/-- The workspaces produced by scanning `envChain`. -/
def wsChain : List WorkspaceInfo :=
  envChain.workspaceRoots.filterMap (fun r => scanWorkspaceRoot envChain r {})

/-- The lockfile-derived edge `b → a` of `envChain`. -/
def edgeChain : DependencyEdge :=
  { id := "b@1.0.0-r->a@1.0.0-r", source := "b@1.0.0-r", target := "a@1.0.0-r",
    type := .transitive, version := "1.0.0", color := "#999", width := 1 }

/-- The node returned by the flag-false scan of `envStale`: still marked
outdated with the registry's latest version. -/
def nodeStale : DependencyNode :=
  { id := "a@1.0.0-r", name := "a", version := "1.0.0", latestVersion := some "2.0.0",
    type := .dependency, status := .outdated, source := "r", depth := 0, size10 := 200,
    color := getStatusColor .outdated }

/-! ### Helper lemmas -/

/-- Flattening the batch decomposition recovers the element-wise map. -/
theorem toBatchesAux_flatMap (f : DependencyNode → DependencyNode) :
    ∀ (n : Nat) (l : List DependencyNode), l.length ≤ n →
      (toBatchesAux n l).flatMap (fun b => b.map f) = l.map f := by
  intro n
  induction n with
  | zero =>
    intro l h
    have : l = [] := List.eq_nil_of_length_eq_zero (Nat.le_zero.mp h)
    subst this; rfl
  | succ n ih =>
    intro l h
    cases l with
    | nil => rfl
    | cons a as =>
      show ((a :: as).take 10).map f ++
          (toBatchesAux n ((a :: as).drop 10)).flatMap (fun b => b.map f) = _
      rw [ih ((a :: as).drop 10) (by simp at h ⊢; omega)]
      rw [← List.map_append, List.take_append_drop]

/-- The staleness pass is the element-wise `stalenessOne` map: batching by
10 does not change the result. -/
theorem checkOutdatedPackages_eq_map (reg : Registry) (nodes : List DependencyNode) :
    checkOutdatedPackages reg nodes = nodes.map (stalenessOne reg) :=
  toBatchesAux_flatMap (stalenessOne reg) nodes.length nodes le_rfl

/-- Conflict nodes pass through the staleness pass untouched. -/
theorem stalenessOne_conflict {reg : Registry} {n : DependencyNode}
    (h : n.status = .conflict) : stalenessOne reg n = n := by
  simp [stalenessOne, h]

/-- Behaviour of `stalenessOne` on a non-conflict node, by registry answer. -/
theorem stalenessOne_spec (reg : Registry) (n : DependencyNode) (h : n.status ≠ .conflict) :
    (match getLatestVersion reg n.name with
     | Option.none => stalenessOne reg n = n
     | some l =>
       if regCompareVersions n.version l < 0 then
         stalenessOne reg n =
           { n with
             status := .outdated
             color := getStatusColor .outdated
             latestVersion := some l }
       else stalenessOne reg n = n) := by
  unfold stalenessOne getVersionInfo
  cases hl : getLatestVersion reg n.name with
  | none => simp [h, hl]
  | some l =>
    by_cases hc : regCompareVersions n.version l < 0 <;> simp [h, hl, hc]

/-- `cmpPartsU` on equal lists returns `0`. -/
theorem cmpPartsU_self (l : List Int) : cmpPartsU l l = 0 := by
  induction l with
  | nil => rfl
  | cons a as ih => simpa [cmpPartsU] using ih

/-- `compareVersions` only looks at the `v`-stripped strings, and equal
stripped strings compare equal. -/
theorem compareVersions_eq_zero_of_stripV_eq {s t : String} (h : stripV s = stripV t) :
    compareVersions s t = 0 := by
  simp only [compareVersions]
  rw [h]
  cases hp : (stripV t).data.contains '-' <;> simp [hp, cmpPartsU_self]

/-- Prepending `v` is erased by `stripV`. -/
theorem stripV_v_append (x : String) : stripV ("v" ++ x) = x := by
  obtain ⟨l⟩ := x
  rfl

/-- `stripV` keeps a string whose first character is not `v`. -/
theorem stripV_eq_self {x : String} (h : x.data.head? ≠ some 'v') : stripV x = x := by
  obtain ⟨l⟩ := x
  unfold stripV
  split
  · rename_i heq
    exact absurd (by simp [show l = 'v' :: _ from heq]) h
  · rfl

/-! ### Claims -/

/-- C1, counterexample: a scan with `enableVersionChecking := false` whose
registry knows a newer version still returns the node `outdated` with
`latestVersion` set — the staleness pass is not skipped, refuting the
claim that every non-conflict node stays `up-to-date` with no
`latestVersion`. -/
theorem claimC1_cex :
    (scanWorkspace envStale { enableVersionChecking := some false }).map
      (fun g => g.nodes.map (fun n => (n.status, n.latestVersion))) =
      .ok [(.outdated, some "2.0.0")] := rfl

/-- C4, counterexample: two roots resolving `a` to different versions give
`metadata.conflicts = 2` (both aggregated group members) while the
returned node list has exactly one `conflict` node — the counts differ. -/
theorem claimC4_cex :
    (scanWorkspace envConflict {}).map
      (fun g => (g.metadata.conflicts, (g.nodes.filter (fun n => n.status = .conflict)).length)) =
      .ok (2, 1) := rfl

/-- C4 (amended): `totalPackages`, `totalDependencies`, `vulnerabilities`
and `outdated` are exact counts over the final lists, but `conflicts`
counts the aggregated members of conflicting name groups
(`conflictNodes`), not the returned nodes with status `conflict`. -/
theorem claimC4_theorem (reg : Registry) (workspaces : List WorkspaceInfo)
    (options : ScanOptions) :
    (buildDependencyGraph reg workspaces options).metadata.totalPackages =
      (buildDependencyGraph reg workspaces options).nodes.length ∧
    (buildDependencyGraph reg workspaces options).metadata.totalDependencies =
      (buildDependencyGraph reg workspaces options).edges.length ∧
    (buildDependencyGraph reg workspaces options).metadata.vulnerabilities =
      ((buildDependencyGraph reg workspaces options).nodes.filter
        (fun n => n.status = .vulnerable)).length ∧
    (buildDependencyGraph reg workspaces options).metadata.outdated =
      ((buildDependencyGraph reg workspaces options).nodes.filter
        (fun n => n.status = .outdated)).length ∧
    (buildDependencyGraph reg workspaces options).metadata.conflicts =
      (processNodesAndConflicts (aggregatedNodes workspaces)).2.length :=
  ⟨rfl, rfl, rfl, rfl, rfl⟩

/-- C5, counterexample: resolved version `1.0.0-alpha` with registry latest
`1.0.0`.  Per the §4.1 comparator the latest is strictly greater
(`compareVersions "1.0.0-alpha" "1.0.0" = 2`), so the claim demands the
node be marked `outdated`; the staleness pass, which uses the registry
client's pre-release-blind comparator, leaves it unchanged. -/
theorem claimC5_cex :
    checkOutdatedPackages regA1 [nodePre] = [nodePre] ∧
    nodePre.status ≠ .conflict ∧
    getLatestVersion regA1 nodePre.name = some "1.0.0" ∧
    compareVersions nodePre.version "1.0.0" = 2 ∧
    regCompareVersions nodePre.version "1.0.0" = 0 := by
  exact ⟨rfl, by decide, rfl, by decide, by decide⟩

/-- C5 (amended): the staleness pass maps every node independently; a node
already `conflict` is never modified; for any other node the registry's
latest version is fetched and the node is marked `outdated` (colour
updated, `latestVersion` set) if and only if the registry client's own
numeric comparator — not the §4.1 comparator with its pre-release rule —
says the current version is strictly smaller; a registry failure leaves
the node unchanged. -/
theorem claimC5_theorem (reg : Registry) (nodes : List DependencyNode) :
    checkOutdatedPackages reg nodes = nodes.map (stalenessOne reg) ∧
    ∀ n ∈ nodes,
      (n.status = .conflict → stalenessOne reg n = n) ∧
      (n.status ≠ .conflict →
        (match getLatestVersion reg n.name with
         | Option.none => stalenessOne reg n = n
         | some l =>
           if regCompareVersions n.version l < 0 then
             stalenessOne reg n =
               { n with
                 status := .outdated
                 color := getStatusColor .outdated
                 latestVersion := some l }
           else stalenessOne reg n = n)) :=
  ⟨checkOutdatedPackages_eq_map reg nodes,
   fun n _ => ⟨fun h => stalenessOne_conflict h, fun h => stalenessOne_spec reg n h⟩⟩

/-- C5, witness: the amended theorem applied to the concrete pre-release
node and registry. -/
theorem claimC5_witness :
    checkOutdatedPackages regA1 [nodePre] = [nodePre].map (stalenessOne regA1) ∧
    stalenessOne regA1 nodePre = nodePre := by
  refine ⟨(claimC5_theorem regA1 [nodePre]).1, ?_⟩
  have h := ((claimC5_theorem regA1 [nodePre]).2 nodePre (by simp)).2 (by decide)
  exact h

/-- C6, counterexample: `updateKind("2.0.0", "1.0.0")` is `none` although
the comparison is GREATER, not EQUAL; and `updateKind("v1.0.0", "v1.0.1")`
is `major` although the `v`-stripped strings agree on major and minor
(the code compares the raw strings through `Number`, and `Number("v1")` is
`NaN`, unequal to itself). -/
theorem claimC6_cex :
    getUpdateType "2.0.0" "1.0.0" = .none ∧ compareVersions "2.0.0" "1.0.0" = 1 ∧
    getUpdateType "v1.0.0" "v1.0.1" = .major ∧
    versionParts (stripV "v1.0.0") = [1, 0, 0] ∧
    versionParts (stripV "v1.0.1") = [1, 0, 1] := by
  decide

/-- C6 (amended): `updateKind` returns `none` exactly when the current
version is not LESS than the latest per `compare` (so also on GREATER);
otherwise it compares index 0, then index 1 of the raw (un-stripped)
strings coerced through JavaScript `Number`, where `NaN` is unequal to
everything including itself, and returns `major`/`minor` for the first
difference, else `patch`. -/
theorem claimC6_theorem (current latest : String) :
    getUpdateType current latest = updateKindAmended current latest ∧
    (getUpdateType current latest = .none ↔ compareVersions current latest ≠ 2) := by
  constructor
  · unfold getUpdateType updateKindAmended isVersionOutdated
    by_cases h : compareVersions current latest = 2 <;> simp [h]
  · unfold getUpdateType isVersionOutdated
    by_cases h : compareVersions current latest = 2
    · simp [h]
      split
      · simp_all
      · simp_all
        split <;> simp_all
    · simp [h]

/-- C6, witness: the amended rule at a concrete pair. -/
theorem claimC6_witness :
    getUpdateType "1.0.0" "1.0.1" = updateKindAmended "1.0.0" "1.0.1" ∧
    (getUpdateType "2.0.0" "1.0.0" = .none ↔ compareVersions "2.0.0" "1.0.0" ≠ 2) :=
  ⟨( claimC6_theorem "1.0.0" "1.0.1").1, ( claimC6_theorem "2.0.0" "1.0.0").2⟩

/-- C7, counterexample: `compare("V1.0.0", "1.0.0")` is LESS (`2`), not
EQUAL — the regex `/^v/` is case-sensitive, so a leading uppercase `V` is
not stripped (and `parseInt("V1") || 0` is `0`). -/
theorem claimC7_cex :
    compareVersions "V1.0.0" "1.0.0" = 2 ∧ compareVersions "V1.0.0" "1.0.0" ≠ 0 := by
  decide

/-- C7 (amended): `compare` strips a single leading lowercase `v` only
(never `V`); equality still requires every compared component equal after
that stripping, so `compare(x, x)` is EQUAL for every `x`, and prefixing a
lowercase `v` to a version that does not itself start with `v` preserves
equality. -/
theorem claimC7_theorem (x : String) :
    compareVersions x x = 0 ∧
    (x.data.head? ≠ some 'v' → compareVersions ("v" ++ x) x = 0) :=
  ⟨compareVersions_eq_zero_of_stripV_eq rfl,
   fun h => compareVersions_eq_zero_of_stripV_eq
     ((stripV_v_append x).trans (stripV_eq_self h).symm)⟩

/-- C7, witness: the amended statement at `1.0.0`. -/
theorem claimC7_witness :
    compareVersions "1.0.0" "1.0.0" = 0 ∧ compareVersions "v1.0.0" "1.0.0" = 0 :=
  ⟨( claimC7_theorem "1.0.0").1, ( claimC7_theorem "1.0.0").2 (by decide)⟩

/-- C9: a scan fails (with the distinguishable `No workspace folders found`
error) exactly when the workspace-root list is empty; a root whose
manifest read returns `null` is dropped and the scan continues over the
remaining roots; if every root is dropped the scan still succeeds with an
empty graph. -/
theorem claimC9_theorem (env : ScanEnv) (options : ScanOptions) :
    ((∃ e, scanWorkspace env options = .error e) ↔ env.workspaceRoots = []) ∧
    (∀ pre post bad, env.readPackageJson bad = none →
      scanWorkspace { env with workspaceRoots := pre ++ bad :: post } options =
        (if pre ++ post = [] then .ok (buildDependencyGraph env.registry [] options)
         else scanWorkspace { env with workspaceRoots := pre ++ post } options)) ∧
    ((∀ r ∈ env.workspaceRoots, env.readPackageJson r = none) → env.workspaceRoots ≠ [] →
      scanWorkspace env options = .ok (buildDependencyGraph env.registry [] options)) ∧
    (buildDependencyGraph env.registry [] options).nodes = [] ∧
    (buildDependencyGraph env.registry [] options).edges = [] := by
  refine ⟨?_, ?_, ?_, rfl, rfl⟩
  · unfold scanWorkspace
    by_cases hr : env.workspaceRoots = [] <;> simp [hr]
  · intro pre post bad hbad
    have hbadroot : scanWorkspaceRoot env bad options = none := by
      unfold scanWorkspaceRoot; rw [hbad]
    unfold scanWorkspace
    have hne : pre ++ bad :: post ≠ [] := by simp
    simp only [hne, if_false]
    by_cases h0 : pre ++ post = []
    · obtain ⟨h1, h2⟩ := List.append_eq_nil.mp h0
      subst h1; subst h2
      simp [List.filterMap_append, scanWorkspaceRoot, hbad]
    · have h0' : ¬ (pre = [] ∧ post = []) := fun hc => h0 (by rw [hc.1, hc.2]; rfl)
      simp [List.filterMap_append, scanWorkspaceRoot, hbad, h0', h0]
  · intro hall hne
    unfold scanWorkspace
    simp only [hne, if_false]
    have : env.workspaceRoots.filterMap (fun root => scanWorkspaceRoot env root options) = [] := by
      rw [List.filterMap_eq_nil_iff]
      intro r hr
      unfold scanWorkspaceRoot
      rw [hall r hr]
    rw [this]

/-- C9, witness: dropping the unreadable root `bad` leaves the conflict
scan unchanged; the nonempty-root scan is not an error; a scan whose every
root is unreadable returns the empty graph. -/
theorem claimC9_witness :
    scanWorkspace envDrop {} = scanWorkspace envConflict {} ∧
    (¬ ∃ e, scanWorkspace envConflict {} = .error e) ∧
    scanWorkspace envAllBad {} = .ok (buildDependencyGraph envAllBad.registry [] {}) := by
  refine ⟨?_, ?_, ?_⟩
  · have h := (claimC9_theorem envConflict {}).2.1 [] ["r1", "r2"] "bad" rfl
    simpa using h
  · intro h
    have := (claimC9_theorem envConflict {}).1.mp h
    simp [envConflict] at this
  · exact (claimC9_theorem envAllBad {}).2.2.1 (by intro r hr; fin_cases hr <;> rfl) (by simp [envAllBad, envConflict])

/-- C10: with version checking enabled and the registry answering, a node
is assigned `conflict` at creation time purely because the declared range
`^1.0.0` differs textually from the lockfile-resolved `1.0.1`; the full
single-root single-dependency scan returns that node as `conflict` while
`metadata.conflicts = 0`, i.e. no name group had two distinct versions. -/
theorem claimC10_theorem :
    determinePackageStatus "^1.0.0" "1.0.1" (some "1.0.1") = .conflict ∧
    (createDependencyNode regA101 "a" "^1.0.0" .dependency "r" (some lockA101) 0 {}).status =
      .conflict ∧
    (scanWorkspace envCaret {}).map
      (fun g => (g.nodes.map (fun n => (n.name, n.version, n.status)), g.metadata.conflicts)) =
      .ok ([("a", "1.0.1", .conflict)], 0) :=
  ⟨rfl, rfl, rfl⟩

/-- The conflict-pass fold, with its accumulator made explicit. -/
theorem processFold_eq (nodes : List DependencyNode) :
    ∀ (names : List String) (acc : List DependencyNode × List DependencyNode),
      names.foldl (fun acc name =>
        let nodeGroup := groupOf nodes name
        if 1 < distinctVersions nodeGroup then
          (acc.1 ++ (nodeGroup.take 1).map markConflict, acc.2 ++ nodeGroup.map markConflict)
        else
          (acc.1 ++ nodeGroup.take 1, acc.2)) acc =
      (acc.1 ++ names.flatMap (uniquePick nodes), acc.2 ++ names.flatMap (conflictGroup nodes)) := by
  intro names
  induction names with
  | nil => intro acc; simp
  | cons m ms ih =>
    intro acc
    rw [List.foldl_cons, ih]
    unfold uniquePick conflictGroup
    by_cases h : 1 < distinctVersions (groupOf nodes m) <;> simp [h]

/-- The conflict pass decomposes per name bucket. -/
theorem processNodesAndConflicts_eq (nodes : List DependencyNode) :
    processNodesAndConflicts nodes =
      ((namesInOrder nodes).flatMap (uniquePick nodes),
       (namesInOrder nodes).flatMap (conflictGroup nodes)) := by
  unfold processNodesAndConflicts
  rw [processFold_eq nodes (namesInOrder nodes) ([], [])]
  simp

/-- Invariant of the name-collection fold: no duplicates, and membership is
"already collected or a node of that name exists". -/
theorem namesFold_spec (l : List DependencyNode) :
    ∀ acc : List String, acc.Nodup →
      (l.foldl (fun acc n => if n.name ∈ acc then acc else acc ++ [n.name]) acc).Nodup ∧
      ∀ x, x ∈ l.foldl (fun acc n => if n.name ∈ acc then acc else acc ++ [n.name]) acc ↔
        x ∈ acc ∨ x ∈ l.map (fun n => n.name) := by
  induction l with
  | nil => intro acc h; simpa using h
  | cons a as ih =>
    intro acc h
    rw [List.foldl_cons]
    by_cases ha : a.name ∈ acc
    · rw [if_pos ha]
      obtain ⟨h1, h2⟩ := ih acc h
      refine ⟨h1, fun x => ?_⟩
      rw [h2 x]
      simp only [List.map_cons, List.mem_cons]
      constructor
      · rintro (hx | hx)
        · exact Or.inl hx
        · exact Or.inr (Or.inr hx)
      · rintro (hx | rfl | hx)
        · exact Or.inl hx
        · exact Or.inl ha
        · exact Or.inr hx
    · rw [if_neg ha]
      have hacc : (acc ++ [a.name]).Nodup := by
        rw [List.nodup_append]
        exact ⟨h, List.nodup_singleton _, by simpa using ha⟩
      obtain ⟨h1, h2⟩ := ih (acc ++ [a.name]) hacc
      refine ⟨h1, fun x => ?_⟩
      rw [h2 x]
      simp only [List.mem_append, List.mem_singleton, List.map_cons, List.mem_cons]
      tauto

/-- The bucket keys are distinct. -/
theorem namesInOrder_nodup (nodes : List DependencyNode) : (namesInOrder nodes).Nodup :=
  (namesFold_spec nodes [] List.nodup_nil).1

/-- A bucket key exists exactly for the names occurring in the list. -/
theorem mem_namesInOrder {nodes : List DependencyNode} {x : String} :
    x ∈ namesInOrder nodes ↔ ∃ n ∈ nodes, n.name = x := by
  have h := (namesFold_spec nodes [] List.nodup_nil).2 x
  unfold namesInOrder
  rw [h]
  simp [eq_comm]

/-- Bucket membership. -/
theorem mem_groupOf {nodes : List DependencyNode} {name : String} {n : DependencyNode} :
    n ∈ groupOf nodes name ↔ n ∈ nodes ∧ n.name = name := by
  simp [groupOf]

/-- `markConflict` only touches status and colour. -/
theorem markConflict_fields (n : DependencyNode) :
    (markConflict n).name = n.name ∧ (markConflict n).id = n.id ∧
    (markConflict n).version = n.version ∧ (markConflict n).status = .conflict ∧
    (markConflict n).color = getStatusColor .conflict :=
  ⟨rfl, rfl, rfl, rfl, rfl⟩

/-- Every node contributed by `uniquePick nodes m` is named `m`. -/
theorem name_of_mem_uniquePick {nodes : List DependencyNode} {m : String}
    (x : DependencyNode) (hx : x ∈ uniquePick nodes m) : x.name = m := by
  unfold uniquePick at hx
  split at hx
  · obtain ⟨y, hy, rfl⟩ := List.mem_map.mp hx
    exact (mem_groupOf.mp (List.take_subset _ _ hy)).2
  · exact (mem_groupOf.mp (List.take_subset _ _ hx)).2

/-- Every node contributed by `conflictGroup nodes m` is named `m`. -/
theorem name_of_mem_conflictGroup {nodes : List DependencyNode} {m : String}
    (x : DependencyNode) (hx : x ∈ conflictGroup nodes m) : x.name = m := by
  unfold conflictGroup at hx
  split at hx
  · obtain ⟨y, hy, rfl⟩ := List.mem_map.mp hx
    exact (mem_groupOf.mp hy).2
  · cases hx

/-- Filtering a keyed flat-map by one key recovers that key's bucket. -/
theorem flatMap_filter_key (f : String → List DependencyNode)
    (hf : ∀ m x, x ∈ f m → x.name = m) (P : String) :
    ∀ names : List String, names.Nodup → P ∈ names →
      (names.flatMap f).filter (fun x => x.name = P) = f P := by
  intro names
  induction names with
  | nil => intro _ h; cases h
  | cons m ms ih =>
    intro hnd hP
    rw [List.flatMap_cons m ms f, List.filter_append]
    by_cases hmP : m = P
    · subst hmP
      have hnotin : m ∉ ms := (List.nodup_cons.mp hnd).1
      have h1 : (f m).filter (fun x => x.name = m) = f m :=
        List.filter_eq_self.mpr (fun x hx => by simp [hf m x hx])
      have h2 : (ms.flatMap f).filter (fun x => x.name = m) = [] := by
        rw [List.filter_eq_nil_iff]
        intro x hx
        obtain ⟨mm, hmm, hxm⟩ := List.mem_flatMap.mp hx
        have hname := hf mm x hxm
        simp only [hname, decide_eq_true_eq]
        intro heq
        exact hnotin (heq ▸ hmm)
      rw [h1, h2, List.append_nil]
    · have hPms : P ∈ ms := by
        rcases List.mem_cons.mp hP with h | h
        · exact absurd h.symm hmP
        · exact h
      have h1 : (f m).filter (fun x => x.name = P) = [] := by
        rw [List.filter_eq_nil_iff]
        intro x hx
        simp [hf m x hx, hmP]
      rw [h1, List.nil_append, ih (List.nodup_cons.mp hnd).2 hPms]

/-- `stalenessOne` never changes name, id, version or depth. -/
theorem stalenessOne_fields (reg : Registry) (n : DependencyNode) :
    (stalenessOne reg n).name = n.name ∧ (stalenessOne reg n).id = n.id ∧
    (stalenessOne reg n).version = n.version ∧ (stalenessOne reg n).depth = n.depth := by
  by_cases h : n.status = .conflict
  · simp [stalenessOne, h]
  · by_cases h2 : (getVersionInfo reg n.name n.version).isOutdated <;>
      simp [stalenessOne, h, h2]

/-- The returned node list is the conflict-pass output mapped through the
depth update followed by the staleness pass. -/
theorem buildDependencyGraph_nodes_eq (reg : Registry) (workspaces : List WorkspaceInfo)
    (options : ScanOptions) :
    (buildDependencyGraph reg workspaces options).nodes =
      (processNodesAndConflicts (aggregatedNodes workspaces)).1.map
        (fun n => stalenessOne reg
          { n with
            depth := (bfsResult (processNodesAndConflicts (aggregatedNodes workspaces)).1
              (aggregatedEdges workspaces) n.id).getD 0 }) := by
  show checkOutdatedPackages reg _ = _
  rw [checkOutdatedPackages_eq_map]
  unfold calculateNodeDepths
  rw [List.map_map]
  rfl

/-- C2: a name group with more than one distinct resolved version has every
member mutated to `conflict` (colour updated) in `conflictNodes`; exactly
one representative — the first seen — survives into the returned list,
still `conflict`-coloured; `metadata.conflicts` is at least 1; and a name
group with a single distinct version contributes exactly one returned
node. -/
theorem claimC2_theorem (reg : Registry) (workspaces : List WorkspaceInfo)
    (options : ScanOptions) (P : String)
    (hconf : 1 < distinctVersions (groupOf (aggregatedNodes workspaces) P)) :
    (processNodesAndConflicts (aggregatedNodes workspaces)).2.filter (fun x => x.name = P) =
      (groupOf (aggregatedNodes workspaces) P).map markConflict ∧
    ((buildDependencyGraph reg workspaces options).nodes.filter (fun x => x.name = P)).map
        (fun x => (x.id, x.version, x.status, x.color)) =
      ((groupOf (aggregatedNodes workspaces) P).take 1).map
        (fun x => (x.id, x.version, Status.conflict, getStatusColor .conflict)) ∧
    1 ≤ (buildDependencyGraph reg workspaces options).metadata.conflicts ∧
    (∀ Q, groupOf (aggregatedNodes workspaces) Q ≠ [] →
      distinctVersions (groupOf (aggregatedNodes workspaces) Q) ≤ 1 →
      ((buildDependencyGraph reg workspaces options).nodes.filter
        (fun x => x.name = Q)).length = 1) := by
  have hmemName : ∀ N : String, groupOf (aggregatedNodes workspaces) N ≠ [] →
      N ∈ namesInOrder (aggregatedNodes workspaces) := by
    intro N hne
    obtain ⟨n, hn⟩ := List.exists_mem_of_ne_nil _ hne
    exact mem_namesInOrder.mpr ⟨n, (mem_groupOf.mp hn).1, (mem_groupOf.mp hn).2⟩
  have hgroup_ne : groupOf (aggregatedNodes workspaces) P ≠ [] := by
    intro h
    rw [h] at hconf
    simp [distinctVersions] at hconf
  have hPnames := hmemName P hgroup_ne
  have hproc := processNodesAndConflicts_eq (aggregatedNodes workspaces)
  have part1 : (processNodesAndConflicts (aggregatedNodes workspaces)).2.filter
      (fun x => x.name = P) = (groupOf (aggregatedNodes workspaces) P).map markConflict := by
    rw [hproc]
    dsimp only
    rw [flatMap_filter_key _ (fun m x hx => name_of_mem_conflictGroup x hx) P _
      (namesInOrder_nodup _) hPnames]
    unfold conflictGroup
    rw [if_pos hconf]
  have hfilterAll : ∀ N : String, N ∈ namesInOrder (aggregatedNodes workspaces) →
      (buildDependencyGraph reg workspaces options).nodes.filter (fun x => x.name = N) =
        (uniquePick (aggregatedNodes workspaces) N).map
          (fun n => stalenessOne reg
            { n with
              depth := (bfsResult (processNodesAndConflicts (aggregatedNodes workspaces)).1
                (aggregatedEdges workspaces) n.id).getD 0 }) := by
    intro N hN
    rw [buildDependencyGraph_nodes_eq]
    rw [List.filter_map]
    rw [List.filter_congr (fun a _ => by
      show decide ((stalenessOne reg
        { a with
          depth := (bfsResult (processNodesAndConflicts (aggregatedNodes workspaces)).1
            (aggregatedEdges workspaces) a.id).getD 0 }).name = N) = decide (a.name = N)
      rw [(stalenessOne_fields reg _).1])]
    rw [hproc]
    dsimp only
    rw [flatMap_filter_key _ (fun m x hx => name_of_mem_uniquePick x hx) N _
      (namesInOrder_nodup _) hN]
  have part2 : ((buildDependencyGraph reg workspaces options).nodes.filter
      (fun x => x.name = P)).map (fun x => (x.id, x.version, x.status, x.color)) =
      ((groupOf (aggregatedNodes workspaces) P).take 1).map
        (fun x => (x.id, x.version, Status.conflict, getStatusColor .conflict)) := by
    rw [hfilterAll P hPnames]
    unfold uniquePick
    rw [if_pos hconf]
    rw [List.map_map, List.map_map]
    apply List.map_congr_left
    intro x _
    have hy : (markConflict x).status = Status.conflict := rfl
    have hskip : stalenessOne reg
        { markConflict x with
          depth := (bfsResult (processNodesAndConflicts (aggregatedNodes workspaces)).1
            (aggregatedEdges workspaces) (markConflict x).id).getD 0 } =
        { markConflict x with
          depth := (bfsResult (processNodesAndConflicts (aggregatedNodes workspaces)).1
            (aggregatedEdges workspaces) (markConflict x).id).getD 0 } :=
      stalenessOne_conflict hy
    simp only [Function.comp]
    rw [hskip]
    rfl
  have part3 : 1 ≤ (buildDependencyGraph reg workspaces options).metadata.conflicts := by
    show 1 ≤ (processNodesAndConflicts (aggregatedNodes workspaces)).2.length
    have hfle := List.length_filter_le (fun x => decide (x.name = P))
      (processNodesAndConflicts (aggregatedNodes workspaces)).2
    rw [part1] at hfle
    rw [List.length_map] at hfle
    have hpos : 0 < (groupOf (aggregatedNodes workspaces) P).length :=
      List.length_pos.mpr hgroup_ne
    omega
  refine ⟨part1, part2, part3, ?_⟩
  intro Q hQne hQv
  rw [hfilterAll Q (hmemName Q hQne)]
  unfold uniquePick
  rw [if_neg (by omega)]
  rw [List.length_map, List.length_take]
  have := List.length_pos.mpr hQne
  omega

/-- C2, witness: the two-root conflict scan instantiates the theorem at
package `a`. -/
theorem claimC2_witness :
    1 < distinctVersions (groupOf (aggregatedNodes wsConflict) "a") ∧
    ((buildDependencyGraph envConflict.registry wsConflict {}).nodes.filter
        (fun x => x.name = "a")).map (fun x => (x.id, x.version, x.status, x.color)) =
      ((groupOf (aggregatedNodes wsConflict) "a").take 1).map
        (fun x => (x.id, x.version, Status.conflict, getStatusColor .conflict)) ∧
    1 ≤ (buildDependencyGraph envConflict.registry wsConflict {}).metadata.conflicts := by
  have h := claimC2_theorem envConflict.registry wsConflict {} "a" (by decide)
  exact ⟨by decide, h.2.1, h.2.2.1⟩

/-- Distinct ids force distinct list members. -/
theorem eq_of_id_eq_of_nodup {l : List DependencyNode}
    (h : (l.map (fun n => n.id)).Nodup) {a b : DependencyNode}
    (ha : a ∈ l) (hb : b ∈ l) (hid : a.id = b.id) : a = b :=
  List.inj_on_of_nodup_map h ha hb hid

/-- A modern-map edge connects the nodes found for the entry's resolved
name and one of its dependency names. -/
theorem mem_modernEdges {lock : PackageLockJson} {wnodes : List DependencyNode}
    {e : DependencyEdge} (he : e ∈ modernEdges lock wnodes) :
    ∃ p ∈ lock.packages.getD [], ∃ s, ∃ t,
      wnodes.find? (fun n => n.name = resolvedEntryName p.2 p.1) = some s ∧
      (∃ dv ∈ p.2.dependencies.getD [], wnodes.find? (fun n => n.name = dv.1) = some t) ∧
      e.source = s.id ∧ e.target = t.id := by
  unfold modernEdges at he
  obtain ⟨p, hp, he2⟩ := List.mem_flatMap.mp he
  refine ⟨p, hp, ?_⟩
  by_cases hroot : p.1 = ""
  · rw [if_pos hroot] at he2; cases he2
  rw [if_neg hroot] at he2
  cases hdeps : p.2.dependencies with
  | none => rw [hdeps] at he2; cases he2
  | some deps =>
    rw [hdeps] at he2
    cases hfind : wnodes.find? (fun n => n.name = resolvedEntryName p.2 p.1) with
    | none => rw [hfind] at he2; cases he2
    | some s =>
      rw [hfind] at he2
      obtain ⟨dv, hdv, he3⟩ := List.mem_filterMap.mp he2
      obtain ⟨t, ht, he4⟩ := Option.map_eq_some'.mp he3
      refine ⟨s, t, rfl, ⟨dv, by simp [hdeps, hdv], ht⟩, ?_, ?_⟩
      · rw [← he4]
      · rw [← he4]

/-- Modern-map edges have distinct endpoints provided node ids are distinct
and no entry lists its own resolved name among its dependencies. -/
theorem modernEdges_no_selfloop {lock : PackageLockJson} {wnodes : List DependencyNode}
    (hnodup : (wnodes.map (fun n => n.id)).Nodup)
    (hsafe : ∀ p ∈ lock.packages.getD [], ∀ dv ∈ p.2.dependencies.getD [],
      resolvedEntryName p.2 p.1 ≠ dv.1) :
    ∀ e ∈ modernEdges lock wnodes, e.source ≠ e.target := by
  intro e he hcontra
  obtain ⟨p, hp, s, t, hsfind, ⟨dv, hdv, htfind⟩, hsrc, htgt⟩ := mem_modernEdges he
  have hs := List.find?_some hsfind
  have ht := List.find?_some htfind
  have hsmem := List.mem_of_find?_eq_some hsfind
  have htmem := List.mem_of_find?_eq_some htfind
  have hst : s = t := eq_of_id_eq_of_nodup hnodup hsmem htmem (by rw [← hsrc, ← htgt, hcontra])
  apply hsafe p hp dv hdv
  have hsname : s.name = resolvedEntryName p.2 p.1 := by simpa using hs
  have htname : t.name = dv.1 := by simpa using ht
  rw [← hsname, hst, htname]

/-- Every legacy edge has the fixed synthetic source `legacy-root` and an
existing node as target. -/
theorem processLegacyDependencies_spec :
    ∀ (deps : List (String × LegacyDependency)) (wnodes : List DependencyNode)
      (e : DependencyEdge), e ∈ processLegacyDependencies deps wnodes →
      e.source = "legacy-root" ∧ ∃ t ∈ wnodes, e.target = t.id
  | [], _, e, he => by simp [processLegacyDependencies] at he
  | (depName, .mk ver subs) :: rest, wnodes, e, he => by
    rw [processLegacyDependencies] at he
    rcases List.mem_append.mp he with h1 | h2
    · rcases List.mem_append.mp h1 with h0 | hsub
      · revert h0
        cases hfind : wnodes.find? (fun n => n.name = depName) with
        | none => intro h0; cases h0
        | some t =>
          intro h0
          rcases List.mem_singleton.mp h0 with rfl
          exact ⟨rfl, t, List.mem_of_find?_eq_some hfind, rfl⟩
      · exact processLegacyDependencies_spec subs wnodes e hsub
    · exact processLegacyDependencies_spec rest wnodes e h2

/-- Every manifest-fallback edge has the synthetic per-root source and an
existing node as target. -/
theorem buildBasicEdges_spec (pj : PackageJson) (sourcePath : String)
    (wnodes : List DependencyNode) :
    ∀ e ∈ buildBasicEdges pj sourcePath wnodes,
      e.source = "root-" ++ basename sourcePath ∧ ∃ t ∈ wnodes, e.target = t.id := by
  intro e he
  unfold buildBasicEdges at he
  obtain ⟨sec, _, he2⟩ := List.mem_flatMap.mp he
  obtain ⟨dv, _, he3⟩ := List.mem_filterMap.mp he2
  obtain ⟨t, ht, he4⟩ := Option.map_eq_some'.mp he3
  exact ⟨by rw [← he4], t, List.mem_of_find?_eq_some ht, by rw [← he4]⟩

/-- C8, counterexample: a lockfile whose modern entry for `a` lists `a`
itself produces an edge with equal source and target id in the returned
graph — there is no self-loop check. -/
theorem claimC8_cex :
    (scanWorkspace envSelfLoop {}).map
      (fun g => g.edges.map (fun e => (e.source, e.target))) =
      .ok [("a@1.0.0-r", "a@1.0.0-r")] := rfl

/-- C8 (amended): lockfile-based and fallback edge construction performs no
self-loop check; `source ≠ target` holds for every edge provided each
workspace's node ids are pairwise distinct, no modern lockfile entry lists
its own resolved name among its dependencies, and no node id collides with
the synthetic sources `legacy-root` / `root-<basename>`. -/
theorem claimC8_theorem (reg : Registry) (workspaces : List WorkspaceInfo)
    (options : ScanOptions)
    (hnodup : ∀ w ∈ workspaces, ((wsNodes w).map (fun n => n.id)).Nodup)
    (hsafe : ∀ w ∈ workspaces,
      ∀ p ∈ ((w.packageLockJson.bind (fun l => l.packages)).getD []),
      ∀ dv ∈ p.2.dependencies.getD [], resolvedEntryName p.2 p.1 ≠ dv.1)
    (hids : ∀ w ∈ workspaces, ∀ n ∈ wsNodes w,
      n.id ≠ "legacy-root" ∧ n.id ≠ "root-" ++ basename w.root) :
    ∀ e ∈ (buildDependencyGraph reg workspaces options).edges, e.source ≠ e.target := by
  intro e he
  have hedges : (buildDependencyGraph reg workspaces options).edges =
    aggregatedEdges workspaces := rfl
  rw [hedges] at he
  obtain ⟨w, hw, hew⟩ := List.mem_flatMap.mp he
  cases hlock : w.packageLockJson with
  | some lock =>
    rw [hlock] at hew
    unfold buildEdgesFromPackageLock at hew
    rcases List.mem_append.mp hew with hm | hl
    · refine modernEdges_no_selfloop (hnodup w hw) ?_ e hm
      intro p hp dv hdv
      refine hsafe w hw p ?_ dv hdv
      rw [hlock]
      exact hp
    · cases hdeps : lock.dependencies with
      | none => rw [hdeps] at hl; cases hl
      | some deps =>
        rw [hdeps] at hl
        obtain ⟨hsrc, t, ht, htgt⟩ := processLegacyDependencies_spec deps (wsNodes w) e hl
        rw [hsrc, htgt]
        intro hcontra
        exact (hids w hw t ht).1 hcontra.symm
  | none =>
    rw [hlock] at hew
    obtain ⟨hsrc, t, ht, htgt⟩ := buildBasicEdges_spec w.packageJson w.root (wsNodes w) e hew
    rw [hsrc, htgt]
    intro hcontra
    exact (hids w hw t ht).2 hcontra.symm

/-- C8, witness: the amended theorem applied to the chain scan, whose
lockfile edge `b → a` is indeed loop-free. -/
theorem claimC8_witness :
    edgeChain ∈ (buildDependencyGraph envChain.registry wsChain {}).edges ∧
    edgeChain.source ≠ edgeChain.target :=
  ⟨by decide,
   claimC8_theorem envChain.registry wsChain {} (by decide) (by decide) (by decide)
     edgeChain (by decide)⟩

/-- With version checking disabled, created nodes are up-to-date with no
latest version. -/
theorem createDependencyNode_flagFalse (reg : Registry) (name version : String)
    (type : DepType) (sourcePath : String) (lock : Option PackageLockJson) (depth : Nat)
    (options : ScanOptions) (hflag : options.enableVersionChecking = some false) :
    nodeFresh (createDependencyNode reg name version type sourcePath lock depth options) := by
  unfold createDependencyNode nodeFresh
  simp [hflag]

/-- A state-wide invariant survives any fold whose step preserves it. -/
theorem foldl_preserve {α : Type}
    (f : (List DependencyNode × List String) → α → List DependencyNode × List String)
    (hstep : ∀ st a, (∀ n ∈ st.1, nodeFresh n) → ∀ n ∈ (f st a).1, nodeFresh n) :
    ∀ (l : List α) (st : List DependencyNode × List String),
      (∀ n ∈ st.1, nodeFresh n) → ∀ n ∈ (l.foldl f st).1, nodeFresh n := by
  intro l
  induction l with
  | nil => intro st h; exact h
  | cons a as ih => intro st h; exact ih _ (hstep st a h)

/-- One transitive-discovery step preserves freshness under a disabled
version check. -/
theorem transStep_fresh (reg : Registry) (lock : PackageLockJson) (sourcePath : String)
    (options : ScanOptions) (currentDepth : Nat)
    (hflag : options.enableVersionChecking = some false)
    (st : List DependencyNode × List String) (nv : String × String)
    (h : ∀ n ∈ st.1, nodeFresh n) :
    ∀ n ∈ (transStep reg lock sourcePath options currentDepth st nv).1, nodeFresh n := by
  unfold transStep
  dsimp only
  split
  · exact h
  · split
    · exact h
    · intro n hn
      rcases List.mem_append.mp hn with hn1 | hn2
      · exact h n hn1
      · rcases List.mem_singleton.mp hn2 with rfl
        exact createDependencyNode_flagFalse reg nv.1 nv.2 .dependency sourcePath
          (some lock) currentDepth options hflag

/-- The transitive walk preserves freshness under a disabled version
check. -/
theorem processTransitiveDependencies_fresh (reg : Registry) (lock : PackageLockJson)
    (sourcePath : String) (options : ScanOptions)
    (hflag : options.enableVersionChecking = some false) :
    ∀ (fuel currentDepth : Nat) (maxDepth : Int) (all : List DependencyNode),
      (∀ n ∈ all, nodeFresh n) →
      ∀ n ∈ processTransitiveDependencies reg lock sourcePath options fuel currentDepth
        maxDepth all, nodeFresh n := by
  intro fuel
  induction fuel with
  | zero => intro c m all h; exact h
  | succ fuel ih =>
    intro c m all h
    rw [processTransitiveDependencies]
    split
    · exact h
    · have hstepped : ∀ n ∈ (all.foldl (fun st dep =>
          if dep.depth = c - 1 then
            (findTransitiveDependencies dep.name lock).foldl
              (transStep reg lock sourcePath options c) st
          else st) (all, ([] : List String))).1, nodeFresh n := by
        refine foldl_preserve _ ?_ all (all, []) h
        intro st dep hst
        split
        · exact foldl_preserve _ (fun st2 nv hst2 =>
            transStep_fresh reg lock sourcePath options c hflag st2 nv hst2) _ st hst
        · exact hst
      split
      · exact ih _ _ _ hstepped
      · exact hstepped

/-- Direct nodes are fresh under a disabled version check. -/
theorem directNodes_fresh (reg : Registry) (pj : PackageJson)
    (lock : Option PackageLockJson) (sourcePath : String) (options : ScanOptions)
    (hflag : options.enableVersionChecking = some false) :
    ∀ n ∈ directNodes reg pj lock sourcePath options, nodeFresh n := by
  intro n hn
  unfold directNodes at hn
  obtain ⟨sec, _, hn2⟩ := List.mem_flatMap.mp hn
  split at hn2
  · obtain ⟨nv, _, rfl⟩ := List.mem_map.mp hn2
    exact createDependencyNode_flagFalse reg nv.1 nv.2 sec.2.1 sourcePath lock 0 options hflag
  · cases hn2

/-- Every parsed node is fresh under a disabled version check. -/
theorem parseDependenciesWithDepth_fresh (reg : Registry) (pj : PackageJson)
    (lock : Option PackageLockJson) (sourcePath : String) (options : ScanOptions)
    (hflag : options.enableVersionChecking = some false) :
    ∀ n ∈ parseDependenciesWithDepth reg pj lock sourcePath options, nodeFresh n := by
  unfold parseDependenciesWithDepth
  cases lock with
  | none => exact directNodes_fresh reg pj none sourcePath options hflag
  | some l =>
    dsimp only
    split
    · exact processTransitiveDependencies_fresh reg l sourcePath options hflag _ _ _ _
        (directNodes_fresh reg pj (some l) sourcePath options hflag)
    · exact directNodes_fresh reg pj (some l) sourcePath options hflag

/-- Workspace dependencies are fresh under a disabled version check. -/
theorem scanWorkspaceRoot_fresh {env : ScanEnv} {root : String} {options : ScanOptions}
    {w : WorkspaceInfo} (hflag : options.enableVersionChecking = some false)
    (hw : scanWorkspaceRoot env root options = some w) :
    ∀ n ∈ w.dependencies, nodeFresh n := by
  unfold scanWorkspaceRoot at hw
  cases hpj : env.readPackageJson root with
  | none => rw [hpj] at hw; cases hw
  | some pj =>
    rw [hpj] at hw
    cases hw
    exact parseDependenciesWithDepth_fresh env.registry pj _ root options hflag

/-- All aggregated nodes of a flag-false scan are fresh. -/
theorem aggregatedNodes_fresh {env : ScanEnv} {options : ScanOptions}
    (hflag : options.enableVersionChecking = some false) :
    ∀ n ∈ aggregatedNodes (env.workspaceRoots.filterMap
      (fun r => scanWorkspaceRoot env r options)), nodeFresh n := by
  intro n hn
  unfold aggregatedNodes at hn
  obtain ⟨w, hw, hnw⟩ := List.mem_flatMap.mp hn
  obtain ⟨root, _, hroot⟩ := List.mem_filterMap.mp hw
  unfold wsNodes at hnw
  obtain ⟨m, hm, rfl⟩ := List.mem_map.mp hnw
  exact scanWorkspaceRoot_fresh hflag hroot m hm

/-- Every surviving node of the conflict pass is an aggregated node,
possibly conflict-marked. -/
theorem mem_processNodes_fst {nodes : List DependencyNode} {x : DependencyNode}
    (hx : x ∈ (processNodesAndConflicts nodes).1) :
    ∃ m ∈ nodes, x = m ∨ x = markConflict m := by
  rw [processNodesAndConflicts_eq] at hx
  dsimp only at hx
  obtain ⟨name, _, hxe⟩ := List.mem_flatMap.mp hx
  unfold uniquePick at hxe
  split at hxe
  · obtain ⟨y, hy, rfl⟩ := List.mem_map.mp hxe
    exact ⟨y, (mem_groupOf.mp (List.take_subset _ _ hy)).1, Or.inr rfl⟩
  · exact ⟨x, (mem_groupOf.mp (List.take_subset _ _ hxe)).1, Or.inl rfl⟩

/-- A successful scan returns exactly the built graph of the surviving
workspaces. -/
theorem scanWorkspace_ok_inv {env : ScanEnv} {options : ScanOptions} {g : DependencyGraph}
    (hg : scanWorkspace env options = .ok g) :
    g = buildDependencyGraph env.registry
      (env.workspaceRoots.filterMap (fun root => scanWorkspaceRoot env root options))
      options := by
  unfold scanWorkspace at hg
  split at hg
  · cases hg
  · cases hg
    rfl

/-- Full characterisation of the staleness pass on a depth-updated node
that is fresh, or conflict-marked with no stored latest version: a conflict
node passes through untouched, and a non-conflict node comes out `outdated`
with `latestVersion` set exactly when the registry's latest known version
is strictly greater per the registry client's comparator — otherwise it
stays `up-to-date` with no `latestVersion`. -/
theorem stalenessOne_final (reg : Registry) (m : DependencyNode) (d : Nat)
    (hm : nodeFresh m ∨ (m.status = .conflict ∧ m.latestVersion = none)) :
    (stalenessOne reg { m with depth := d }).status ≠ .vulnerable ∧
    ((stalenessOne reg { m with depth := d }).status = .conflict →
      (stalenessOne reg { m with depth := d }).latestVersion = none) ∧
    ((stalenessOne reg { m with depth := d }).status ≠ .conflict →
      match getLatestVersion reg (stalenessOne reg { m with depth := d }).name with
      | some l =>
        if regCompareVersions (stalenessOne reg { m with depth := d }).version l < 0 then
          (stalenessOne reg { m with depth := d }).status = .outdated ∧
            (stalenessOne reg { m with depth := d }).latestVersion = some l
        else
          (stalenessOne reg { m with depth := d }).status = .upToDate ∧
            (stalenessOne reg { m with depth := d }).latestVersion = none
      | none =>
        (stalenessOne reg { m with depth := d }).status = .upToDate ∧
          (stalenessOne reg { m with depth := d }).latestVersion = none) := by
  rcases hm with ⟨hst, hlv⟩ | ⟨hst, hlv⟩
  · have hnc : ({ m with depth := d } : DependencyNode).status ≠ .conflict := by
      show m.status ≠ _
      rw [hst]
      decide
    have hspec := stalenessOne_spec reg { m with depth := d } hnc
    cases hl : getLatestVersion reg m.name with
    | none =>
      rw [show getLatestVersion reg ({ m with depth := d } : DependencyNode).name = none
        from hl] at hspec
      dsimp only at hspec
      rw [hspec]
      refine ⟨?_, ?_, ?_⟩
      · show m.status ≠ _
        rw [hst]
        decide
      · intro h
        exact absurd (show Status.upToDate = Status.conflict from hst ▸ h) (by decide)
      · intro _
        rw [show getLatestVersion reg ({ m with depth := d } : DependencyNode).name = none
          from hl]
        dsimp only
        exact ⟨hst, hlv⟩
    | some l =>
      rw [show getLatestVersion reg ({ m with depth := d } : DependencyNode).name = some l
        from hl] at hspec
      dsimp only at hspec
      by_cases hc : regCompareVersions m.version l < 0
      · rw [if_pos (show regCompareVersions
          ({ m with depth := d } : DependencyNode).version l < 0 from hc)] at hspec
        rw [hspec]
        refine ⟨?_, ?_, ?_⟩
        · show Status.outdated ≠ Status.vulnerable
          decide
        · intro h
          exact absurd (show Status.outdated = Status.conflict from h) (by decide)
        · intro _
          rw [show getLatestVersion reg m.name = some l from hl]
          dsimp only
          rw [if_pos hc]
          exact ⟨rfl, rfl⟩
      · rw [if_neg (show ¬ regCompareVersions
          ({ m with depth := d } : DependencyNode).version l < 0 from hc)] at hspec
        rw [hspec]
        refine ⟨?_, ?_, ?_⟩
        · show m.status ≠ _
          rw [hst]
          decide
        · intro h
          exact absurd (show Status.upToDate = Status.conflict from hst ▸ h) (by decide)
        · intro _
          rw [show getLatestVersion reg ({ m with depth := d } : DependencyNode).name = some l
            from hl]
          dsimp only
          rw [if_neg hc]
          exact ⟨hst, hlv⟩
  · have hconf := @stalenessOne_conflict reg { m with depth := d }
      (show ({ m with depth := d } : DependencyNode).status = .conflict from hst)
    rw [hconf]
    refine ⟨?_, fun _ => hlv, ?_⟩
    · show m.status ≠ _
      rw [hst]
      decide
    · intro h
      exact absurd (show ({ m with depth := d } : DependencyNode).status = .conflict
        from hst) h

/-- C1 (amended): with `enableVersionChecking := false` the creation-time
check is skipped — but the staleness pass still runs.  In the returned
graph no node is `vulnerable`; `conflict` nodes carry no `latestVersion`;
and every non-conflict node is `outdated` with `latestVersion` set to the
registry's latest version for its name exactly when that version is
strictly greater than the node's per the registry client's comparator —
otherwise it stays `up-to-date` with no `latestVersion`. -/
theorem claimC1_theorem (env : ScanEnv) (options : ScanOptions)
    (hflag : options.enableVersionChecking = some false)
    (g : DependencyGraph) (hg : scanWorkspace env options = .ok g) :
    ∀ n ∈ g.nodes,
      n.status ≠ .vulnerable ∧
      (n.status = .conflict → n.latestVersion = none) ∧
      (n.status ≠ .conflict →
        match getLatestVersion env.registry n.name with
        | some l =>
          if regCompareVersions n.version l < 0 then
            n.status = .outdated ∧ n.latestVersion = some l
          else n.status = .upToDate ∧ n.latestVersion = none
        | none => n.status = .upToDate ∧ n.latestVersion = none) := by
  have hginv := scanWorkspace_ok_inv hg
  subst hginv
  intro n hn
  rw [buildDependencyGraph_nodes_eq] at hn
  obtain ⟨m, hm, rfl⟩ := List.mem_map.mp hn
  obtain ⟨m0, hm0, hcases⟩ := mem_processNodes_fst hm
  have hfresh : nodeFresh m0 := aggregatedNodes_fresh hflag m0 hm0
  rcases hcases with hx | hx
  · subst hx
    exact stalenessOne_final env.registry m _ (Or.inl hfresh)
  · subst hx
    exact stalenessOne_final env.registry (markConflict m0) _ (Or.inr ⟨rfl, hfresh.2⟩)

/-- C1, witness: the amended theorem applied to the flag-false stale scan,
whose single node is non-conflict and comes out `outdated` with
`latestVersion` set, the registry's latest being strictly greater. -/
theorem claimC1_witness :
    nodeStale.status ≠ .vulnerable ∧
    (nodeStale.status = .conflict → nodeStale.latestVersion = none) ∧
    (nodeStale.status ≠ .conflict →
      match getLatestVersion envStale.registry nodeStale.name with
      | some l =>
        if regCompareVersions nodeStale.version l < 0 then
          nodeStale.status = .outdated ∧ nodeStale.latestVersion = some l
        else nodeStale.status = .upToDate ∧ nodeStale.latestVersion = none
      | none => nodeStale.status = .upToDate ∧ nodeStale.latestVersion = none) := by
  have h := claimC1_theorem envStale { enableVersionChecking := some false } rfl
    (buildDependencyGraph envStale.registry
      (envStale.workspaceRoots.filterMap (fun root => scanWorkspaceRoot envStale root
        { enableVersionChecking := some false })) { enableVersionChecking := some false })
    rfl
  exact h nodeStale (by decide)

/-- Adjacency membership unfolds to an edge. -/
theorem mem_adjOf {edges : List DependencyEdge} {v c : String} :
    c ∈ adjOf edges v ↔ ∃ e ∈ edges, e.source = v ∧ e.target = c := by
  unfold adjOf
  constructor
  · intro hc
    obtain ⟨e, he, rfl⟩ := List.mem_map.mp hc
    have := List.mem_filter.mp he
    exact ⟨e, this.1, by simpa using this.2, rfl⟩
  · rintro ⟨e, he, hs, rfl⟩
    exact List.mem_map.mpr ⟨e, List.mem_filter.mpr ⟨he, by simpa using hs⟩, rfl⟩

/-- A walk extends along an adjacency step. -/
theorem reach_step {edges : List DependencyEdge} {R : List String} {m : Nat} {v c : String}
    (hv : reachN edges R m v) (hc : c ∈ adjOf edges v) : reachN edges R (m + 1) c := by
  obtain ⟨e, he, hs, ht⟩ := mem_adjOf.mp hc
  exact ⟨e, he, ht, hs ▸ hv⟩

/-- With an empty queue the invariant yields the two final-state facts:
every recorded depth is the exact minimum walk length, and every reachable
id has a recorded depth. -/
theorem bfsFinal {edges : List DependencyEdge} {R uni : List String} {vis : List String}
    {d : String → Option Nat} (hinv : BfsInv edges R uni [] vis d) :
    (∀ x k, d x = some k → reachN edges R k x ∧ ∀ j, reachN edges R j x → k ≤ j) ∧
    (∀ j x, reachN edges R j x → (d x).isSome = true) := by
  constructor
  · intro x k hx
    have hvis : x ∈ vis := by
      have := (hinv.dom x).mp (by rw [hx]; rfl)
      rcases this with h | ⟨k', hk'⟩
      · exact h
      · cases hk'
    exact ⟨hinv.sound x k hx, hinv.visMin x hvis k hx⟩
  · intro j
    induction j with
    | zero =>
      intro x hx
      rw [hinv.rootsZero x hx]
      rfl
    | succ j ih =>
      intro x hx
      obtain ⟨e, he, ht, hsrc⟩ := hx
      have hu := ih e.source hsrc
      obtain ⟨ku, hku⟩ := Option.isSome_iff_exists.mp hu
      have huvis : e.source ∈ vis := by
        have := (hinv.dom e.source).mp hu
        rcases this with h | ⟨k', hk'⟩
        · exact h
        · cases hk'
      obtain ⟨kc, hkc, _⟩ := hinv.visNbr e.source huvis ku hku x
        (mem_adjOf.mpr ⟨e, he, rfl, ht⟩)
      rw [hkc]
      rfl

/-- The head of the queue bounds the walk length of every unvisited
reachable id: the central BFS minimality argument. -/
theorem bfsHeadMin {edges : List DependencyEdge} {R uni : List String}
    {v0 : String} {k0 : Nat} {rest : List (String × Nat)} {vis : List String}
    {d : String → Option Nat} (hinv : BfsInv edges R uni ((v0, k0) :: rest) vis d) :
    ∀ j w, reachN edges R j w → w ∉ vis → k0 ≤ j := by
  intro j
  induction j with
  | zero =>
    intro w hw hnv
    have hdw := hinv.rootsZero w hw
    have : w ∈ vis ∨ ∃ k, (w, k) ∈ (v0, k0) :: rest :=
      (hinv.dom w).mp (by rw [hdw]; rfl)
    rcases this with h | ⟨k, hk⟩
    · exact absurd h hnv
    · have hk0 : d w = some k := hinv.qval w k hk hnv
      have hkz : k = 0 := by
        rw [hdw] at hk0
        exact (Option.some.inj hk0).symm
      subst hkz
      rcases List.mem_cons.mp hk with heq | hmem
      · cases heq
        exact le_refl 0
      · exact (List.rel_of_pairwise_cons hinv.mono hmem).1
  | succ j ih =>
    intro w hw hnv
    obtain ⟨e, he, ht, hsrc⟩ := hw
    by_cases hu : e.source ∈ vis
    · have husome : (d e.source).isSome = true := (hinv.dom e.source).mpr (Or.inl hu)
      obtain ⟨ku, hku⟩ := Option.isSome_iff_exists.mp husome
      have hkuj : ku ≤ j := hinv.visMin e.source hu ku hku j hsrc
      obtain ⟨kw, hkw, hkwle⟩ := hinv.visNbr e.source hu ku hku w
        (mem_adjOf.mpr ⟨e, he, rfl, ht⟩)
      have : w ∈ vis ∨ ∃ k, (w, k) ∈ (v0, k0) :: rest :=
        (hinv.dom w).mp (by rw [hkw]; rfl)
      rcases this with h | ⟨k, hk⟩
      · exact absurd h hnv
      · have hdw : d w = some k := hinv.qval w k hk hnv
        have hkkw : k = kw := by
          rw [hkw] at hdw
          exact (Option.some.inj hdw).symm
        subst hkkw
        have hhead : k0 ≤ k := by
          rcases List.mem_cons.mp hk with heq | hmem
          · cases heq
            exact le_refl _
          · exact (List.rel_of_pairwise_cons hinv.mono hmem).1
        omega
    · have := ih e.source hsrc hu
      omega

/-- Characterization of the relaxation fold when every already-recorded
child depth is at most `k + 1` (which the invariant guarantees): no
recorded depth is ever overwritten — only fresh ids are recorded (at
`k + 1`) and appended to the queue. -/
theorem bfsRelax_fold (k : Nat) :
    ∀ (cs : List String) (q0 : List (String × Nat)) (d0 : String → Option Nat),
      (∀ c ∈ cs, ∀ kc, d0 c = some kc → kc ≤ k + 1) →
      (∀ x, (cs.foldl (bfsRelax k) (q0, d0)).2 x =
        if x ∈ cs ∧ d0 x = none then some (k + 1) else d0 x) ∧
      (∃ newE, (cs.foldl (bfsRelax k) (q0, d0)).1 = q0 ++ newE ∧
        newE.length ≤ cs.length ∧
        (∀ p ∈ newE, p.2 = k + 1 ∧ p.1 ∈ cs ∧ d0 p.1 = none) ∧
        (∀ c ∈ cs, d0 c = none → ∃ p ∈ newE, p.1 = c)) := by
  intro cs
  induction cs with
  | nil =>
    intro q0 d0 _
    exact ⟨fun x => by simp, [], by simp, by simp, by simp, by simp⟩
  | cons c cs ih =>
    intro q0 d0 hb
    rw [List.foldl_cons]
    cases hdc : d0 c with
    | some kc =>
      have hkc := hb c (List.mem_cons_self c cs) kc hdc
      have hstep : bfsRelax k (q0, d0) c = (q0, d0) := by
        unfold bfsRelax
        dsimp only
        rw [hdc]
        dsimp only
        rw [if_neg (by omega)]
      rw [hstep]
      obtain ⟨h1, newE, h2, hlen, h4, h5⟩ :=
        ih q0 d0 (fun x hx => hb x (List.mem_cons_of_mem c hx))
      refine ⟨fun x => ?_, newE, h2, Nat.le_succ_of_le hlen, ?_, ?_⟩
      · rw [h1 x]
        by_cases h2x : d0 x = none
        · by_cases h3x : x ∈ cs
          · rw [if_pos ⟨h3x, h2x⟩, if_pos ⟨List.mem_cons_of_mem c h3x, h2x⟩]
          · rw [if_neg (fun hc => h3x hc.1), if_neg ?_]
            rintro ⟨hm, hn⟩
            rcases List.mem_cons.mp hm with rfl | hx2
            · rw [hdc] at hn
              cases hn
            · exact h3x hx2
        · rw [if_neg (fun hc => h2x hc.2), if_neg (fun hc => h2x hc.2)]
      · intro p hp
        obtain ⟨hp1, hp2, hp3⟩ := h4 p hp
        exact ⟨hp1, List.mem_cons_of_mem c hp2, hp3⟩
      · intro x hx hnx
        rcases List.mem_cons.mp hx with rfl | hx2
        · rw [hdc] at hnx
          cases hnx
        · exact h5 x hx2 hnx
    | none =>
      have hstep : bfsRelax k (q0, d0) c =
          (q0 ++ [(c, k + 1)], fun x => if x = c then some (k + 1) else d0 x) := by
        unfold bfsRelax
        dsimp only
        rw [hdc]
      rw [hstep]
      have hb1 : ∀ x ∈ cs, ∀ kc,
          (fun y => if y = c then some (k + 1) else d0 y) x = some kc → kc ≤ k + 1 := by
        intro x hx kc hkc
        have hkc2 : (if x = c then some (k + 1) else d0 x) = some kc := hkc
        by_cases hxc : x = c
        · rw [if_pos hxc] at hkc2
          have := Option.some.inj hkc2
          omega
        · rw [if_neg hxc] at hkc2
          exact hb x (List.mem_cons_of_mem c hx) kc hkc2
      obtain ⟨h1, newE, h2, hlen, h4, h5⟩ := ih (q0 ++ [(c, k + 1)]) _ hb1
      refine ⟨fun x => ?_, (c, k + 1) :: newE, ?_, by simpa using hlen, ?_, ?_⟩
      · rw [h1 x]
        by_cases hxc : x = c
        · subst hxc
          simp [hdc]
        · simp only [if_neg hxc]
          by_cases h2x : d0 x = none
          · by_cases h3x : x ∈ cs <;> simp [h2x, h3x, hxc]
          · simp [h2x, hxc]
      · rw [h2, List.append_assoc]
        rfl
      · intro p hp
        rcases List.mem_cons.mp hp with rfl | hp2
        · exact ⟨rfl, List.mem_cons_self c cs, hdc⟩
        · obtain ⟨hp1, hpm, hpn⟩ := h4 p hp2
          have hpc : p.1 ≠ c := by
            intro hpc
            rw [hpc, if_pos rfl] at hpn
            cases hpn
          rw [if_neg hpc] at hpn
          exact ⟨hp1, List.mem_cons_of_mem c hpm, hpn⟩
      · intro x hx hnx
        rcases List.mem_cons.mp hx with rfl | hx2
        · exact ⟨(x, k + 1), List.mem_cons_self _ _, rfl⟩
        · by_cases hxc : x = c
          · subst hxc
            exact ⟨(x, k + 1), List.mem_cons_self _ _, rfl⟩
          · obtain ⟨p, hp, hpe⟩ := h5 x hx2 (by rw [if_neg hxc]; exact hnx)
            exact ⟨p, List.mem_cons_of_mem _ hp, hpe⟩

/-- Skipping an already-visited head preserves the invariant. -/
theorem bfsInv_skip {edges : List DependencyEdge} {R uni : List String} {v : String}
    {k : Nat} {rest : List (String × Nat)} {vis : List String} {d : String → Option Nat}
    (hinv : BfsInv edges R uni ((v, k) :: rest) vis d) (hv : v ∈ vis) :
    BfsInv edges R uni rest vis d where
  sound := hinv.sound
  rootsZero := hinv.rootsZero
  dom := by
    intro x
    rw [hinv.dom x]
    constructor
    · rintro (h | ⟨k2, hk2⟩)
      · exact Or.inl h
      · rcases List.mem_cons.mp hk2 with heq | hmem
        · cases heq
          exact Or.inl hv
        · exact Or.inr ⟨k2, hmem⟩
    · rintro (h | ⟨k2, hk2⟩)
      · exact Or.inl h
      · exact Or.inr ⟨k2, List.mem_cons_of_mem _ hk2⟩
  qval := fun x k2 hk2 hx => hinv.qval x k2 (List.mem_cons_of_mem _ hk2) hx
  mono := hinv.mono.of_cons
  visMin := hinv.visMin
  visNbr := hinv.visNbr
  qsub := fun x k2 hk2 => hinv.qsub x k2 (List.mem_cons_of_mem _ hk2)

/-- Expanding an unvisited head preserves the invariant, and the new queue
grows by at most the out-degree. -/
theorem bfsInv_expand {edges : List DependencyEdge} {R uni : List String} {v : String}
    {k : Nat} {rest : List (String × Nat)} {vis : List String} {d : String → Option Nat}
    (huni : ∀ w c, c ∈ adjOf edges w → c ∈ uni)
    (hinv : BfsInv edges R uni ((v, k) :: rest) vis d) (hv : v ∉ vis) :
    BfsInv edges R uni ((adjOf edges v).foldl (bfsRelax k) (rest, d)).1 (v :: vis)
      ((adjOf edges v).foldl (bfsRelax k) (rest, d)).2 ∧
    ((adjOf edges v).foldl (bfsRelax k) (rest, d)).1.length ≤
      rest.length + (adjOf edges v).length := by
  have hdv : d v = some k := hinv.qval v k (List.mem_cons_self _ _) hv
  have hreachk : reachN edges R k v := hinv.sound v k hdv
  have hkmin : ∀ j, reachN edges R j v → k ≤ j := fun j hj => bfsHeadMin hinv j v hj hv
  have hbound : ∀ c ∈ adjOf edges v, ∀ kc, d c = some kc → kc ≤ k + 1 := by
    intro c hc kc hkc
    have hcreach : reachN edges R (k + 1) c := reach_step hreachk hc
    by_cases hcvis : c ∈ vis
    · exact hinv.visMin c hcvis kc hkc (k + 1) hcreach
    · have := (hinv.dom c).mp (by rw [hkc]; rfl)
      rcases this with hcv | ⟨k2, hk2⟩
      · exact absurd hcv hcvis
      · have hq2 := hinv.qval c k2 hk2 hcvis
        have hkck : kc = k2 := by
          rw [hkc] at hq2
          exact Option.some.inj hq2
        subst hkck
        rcases List.mem_cons.mp hk2 with heq | hmem
        · cases heq
          omega
        · have := List.rel_of_pairwise_cons hinv.mono hmem
          omega
  obtain ⟨hD, newE, hq, hlen, hnewp, hnewcov⟩ :=
    bfsRelax_fold k (adjOf edges v) rest d hbound
  have hDv : ((adjOf edges v).foldl (bfsRelax k) (rest, d)).2 v = some k := by
    rw [hD v, if_neg (fun hc => by rw [hdv] at hc; cases hc.2)]
    exact hdv
  refine ⟨⟨?_, ?_, ?_, ?_, ?_, ?_, ?_, ?_⟩, by rw [hq, List.length_append]; omega⟩
  · -- sound
    intro x kx hx
    rw [hD x] at hx
    by_cases hfresh : x ∈ adjOf edges v ∧ d x = none
    · rw [if_pos hfresh] at hx
      have : k + 1 = kx := Option.some.inj hx
      subst this
      exact reach_step hreachk hfresh.1
    · rw [if_neg hfresh] at hx
      exact hinv.sound x kx hx
  · -- rootsZero
    intro r hr
    rw [hD r, if_neg (fun hc => by rw [hinv.rootsZero r hr] at hc; cases hc.2)]
    exact hinv.rootsZero r hr
  · -- dom
    intro x
    constructor
    · intro hx
      rw [hD x] at hx
      by_cases hfresh : x ∈ adjOf edges v ∧ d x = none
      · obtain ⟨p, hp, hpe⟩ := hnewcov x hfresh.1 hfresh.2
        refine Or.inr ⟨p.2, ?_⟩
        rw [hq]
        refine List.mem_append_right _ ?_
        have : (x, p.2) = p := by
          rw [← hpe]
        rw [this]
        exact hp
      · rw [if_neg hfresh] at hx
        rcases (hinv.dom x).mp hx with hxv | ⟨k2, hk2⟩
        · exact Or.inl (List.mem_cons_of_mem _ hxv)
        · rcases List.mem_cons.mp hk2 with heq | hmem
          · cases heq
            exact Or.inl (List.mem_cons_self _ _)
          · exact Or.inr ⟨k2, by rw [hq]; exact List.mem_append_left _ hmem⟩
    · rintro (hxv | ⟨k2, hk2⟩)
      · rcases List.mem_cons.mp hxv with rfl | hxv2
        · rw [hDv]
          rfl
        · have hxs := (hinv.dom x).mpr (Or.inl hxv2)
          rw [hD x]
          by_cases hfresh : x ∈ adjOf edges v ∧ d x = none
          · rw [if_pos hfresh]
            rfl
          · rw [if_neg hfresh]
            exact hxs
      · rw [hq] at hk2
        rcases List.mem_append.mp hk2 with hmem | hnew
        · have hxs := (hinv.dom x).mpr (Or.inr ⟨k2, List.mem_cons_of_mem _ hmem⟩)
          rw [hD x]
          by_cases hfresh : x ∈ adjOf edges v ∧ d x = none
          · rw [if_pos hfresh]
            rfl
          · rw [if_neg hfresh]
            exact hxs
        · obtain ⟨_, hpcs, hpnone⟩ := hnewp (x, k2) hnew
          rw [hD x, if_pos ⟨hpcs, hpnone⟩]
          rfl
  · -- qval
    intro x kx hk hxnv
    rw [hq] at hk
    have hxvis : x ∉ vis := fun h => hxnv (List.mem_cons_of_mem _ h)
    rcases List.mem_append.mp hk with hmem | hnew
    · have hold := hinv.qval x kx (List.mem_cons_of_mem _ hmem) hxvis
      rw [hD x, if_neg (fun hc => by rw [hold] at hc; cases hc.2)]
      exact hold
    · obtain ⟨hp2, hpcs, hpnone⟩ := hnewp (x, kx) hnew
      rw [hD x, if_pos ⟨hpcs, hpnone⟩]
      rw [show kx = k + 1 from hp2]
  · -- mono
    rw [hq]
    rw [List.pairwise_append]
    refine ⟨hinv.mono.of_cons, ?_, ?_⟩
    · -- newE pairwise: all depths equal k + 1
      have : ∀ p ∈ newE, ∀ p2 ∈ newE, p.2 ≤ p2.2 ∧ p2.2 ≤ p.2 + 1 := by
        intro p hp p2 hp2
        rw [(hnewp p hp).1, (hnewp p2 hp2).1]
        omega
      exact List.pairwise_of_forall_mem_list this
    · intro a ha b hb
      have hka := List.rel_of_pairwise_cons hinv.mono ha
      rw [(hnewp b hb).1]
      omega
  · -- visMin
    intro x hx kx hkx j hj
    rcases List.mem_cons.mp hx with rfl | hxv
    · rw [hDv] at hkx
      have : k = kx := Option.some.inj hkx
      subst this
      exact hkmin j hj
    · have hxs := (hinv.dom x).mpr (Or.inl hxv)
      rw [hD x] at hkx
      have hnf : ¬(x ∈ adjOf edges v ∧ d x = none) := by
        rintro ⟨_, hc⟩
        rw [hc] at hxs
        cases hxs
      rw [if_neg hnf] at hkx
      exact hinv.visMin x hxv kx hkx j hj
  · -- visNbr
    intro x hx kx hkx c hc
    rcases List.mem_cons.mp hx with rfl | hxv
    · rw [hDv] at hkx
      have hkk : k = kx := Option.some.inj hkx
      subst hkk
      by_cases hcd : d c = none
      · exact ⟨k + 1, by rw [hD c, if_pos ⟨hc, hcd⟩], le_refl _⟩
      · obtain ⟨kc, hkc⟩ := Option.ne_none_iff_exists'.mp hcd
        exact ⟨kc, by rw [hD c, if_neg (fun h2 => hcd h2.2)]; exact hkc,
          hbound c hc kc hkc⟩
    · have hxs := (hinv.dom x).mpr (Or.inl hxv)
      rw [hD x] at hkx
      have hnf : ¬(x ∈ adjOf edges v ∧ d x = none) := by
        rintro ⟨_, hc2⟩
        rw [hc2] at hxs
        cases hxs
      rw [if_neg hnf] at hkx
      obtain ⟨kc, hkc, hle⟩ := hinv.visNbr x hxv kx hkx c hc
      exact ⟨kc, by rw [hD c, if_neg (fun h2 => by rw [h2.2] at hkc; cases hkc)]; exact hkc,
        hle⟩
  · -- qsub
    intro x kx hk
    rw [hq] at hk
    rcases List.mem_append.mp hk with hmem | hnew
    · exact hinv.qsub x kx (List.mem_cons_of_mem _ hmem)
    · exact huni v x (hnewp (x, kx) hnew).2.1

/-- Filtering with a stronger exclusion cannot increase the weighted sum. -/
theorem sum_filter_impl (w : String → Nat) (v : String) :
    ∀ (uni vis : List String),
      ((uni.filter (fun x => x ∉ v :: vis)).map w).sum ≤
      ((uni.filter (fun x => x ∉ vis)).map w).sum := by
  intro uni vis
  induction uni with
  | nil => simp
  | cons u us ih =>
    by_cases h : u ∈ vis
    · rw [List.filter_cons_of_neg (by simp [h]),
        List.filter_cons_of_neg (by simpa using h)]
      exact ih
    · by_cases huv : u = v
      · subst huv
        rw [List.filter_cons_of_neg (by simp),
          List.filter_cons_of_pos (by simpa using h)]
        simp only [List.map_cons, List.sum_cons]
        omega
      · rw [List.filter_cons_of_pos (by simp [huv, h]),
          List.filter_cons_of_pos (by simpa using h)]
        simp only [List.map_cons, List.sum_cons]
        omega

/-- Marking an unvisited universe id as visited frees its weight from the
sum. -/
theorem sum_filter_remove (w : String → Nat) (v : String) :
    ∀ (uni vis : List String), v ∈ uni → v ∉ vis →
      ((uni.filter (fun x => x ∉ v :: vis)).map w).sum + w v ≤
      ((uni.filter (fun x => x ∉ vis)).map w).sum := by
  intro uni
  induction uni with
  | nil => intro vis h; cases h
  | cons u us ih =>
    intro vis hv hnv
    rcases List.mem_cons.mp hv with rfl | hvus
    · rw [List.filter_cons_of_neg (by simp),
        List.filter_cons_of_pos (by simpa using hnv)]
      simp only [List.map_cons, List.sum_cons]
      have := sum_filter_impl w v us vis
      omega
    · by_cases hu : u ∈ vis
      · rw [List.filter_cons_of_neg (by simp [hu]),
          List.filter_cons_of_neg (by simpa using hu)]
        exact ih vis hvus hnv
      · by_cases huv : u = v
        · subst huv
          rw [List.filter_cons_of_neg (by simp),
            List.filter_cons_of_pos (by simpa using hu)]
          simp only [List.map_cons, List.sum_cons]
          have := sum_filter_impl w u us vis
          omega
        · rw [List.filter_cons_of_pos (by simp [huv, hu]),
            List.filter_cons_of_pos (by simpa using hu)]
          simp only [List.map_cons, List.sum_cons]
          have := ih vis hvus hnv
          omega

/-- The BFS loop, run from any invariant state with fuel at least the
potential, computes exact minimum walk lengths, defined exactly for the
reachable ids. -/
theorem bfsLoop_correct (edges : List DependencyEdge) (R uni : List String)
    (huni : ∀ w c, c ∈ adjOf edges w → c ∈ uni) :
    ∀ (fuel : Nat) (q : List (String × Nat)) (vis : List String) (d : String → Option Nat),
      BfsInv edges R uni q vis d →
      bfsPotential (adjOf edges) uni vis q ≤ fuel →
      (∀ x kx, bfsLoop (adjOf edges) fuel q vis d x = some kx →
        reachN edges R kx x ∧ ∀ j, reachN edges R j x → kx ≤ j) ∧
      (∀ j x, reachN edges R j x →
        (bfsLoop (adjOf edges) fuel q vis d x).isSome = true) := by
  intro fuel
  induction fuel with
  | zero =>
    intro q vis d hinv hpot
    have hq : q = [] := by
      cases q with
      | nil => rfl
      | cons a as =>
        exfalso
        unfold bfsPotential at hpot
        simp only [List.length_cons] at hpot
        omega
    subst hq
    exact bfsFinal hinv
  | succ fuel ih =>
    intro q vis d hinv hpot
    cases q with
    | nil => exact bfsFinal hinv
    | cons hd rest =>
      obtain ⟨v, k⟩ := hd
      by_cases hv : v ∈ vis
      · have hunfold : bfsLoop (adjOf edges) (fuel + 1) ((v, k) :: rest) vis d =
            bfsLoop (adjOf edges) fuel rest vis d := by
          rw [bfsLoop, if_pos hv]
        rw [hunfold]
        refine ih rest vis d (bfsInv_skip hinv hv) ?_
        unfold bfsPotential at hpot ⊢
        simp only [List.length_cons] at hpot
        omega
      · have hunfold : bfsLoop (adjOf edges) (fuel + 1) ((v, k) :: rest) vis d =
            bfsLoop (adjOf edges) fuel
              (((adjOf edges v).foldl (bfsRelax k) (rest, d)).1) (v :: vis)
              (((adjOf edges v).foldl (bfsRelax k) (rest, d)).2) := by
          rw [bfsLoop, if_neg hv]
        rw [hunfold]
        obtain ⟨hinv2, hlen⟩ := bfsInv_expand huni hinv hv
        refine ih _ _ _ hinv2 ?_
        have hrem : ((uni.filter (fun x => x ∉ v :: vis)).map
              (fun x => 1 + (adjOf edges x).length)).sum + (1 + (adjOf edges v).length) ≤
            ((uni.filter (fun x => x ∉ vis)).map
              (fun x => 1 + (adjOf edges x).length)).sum :=
          sum_filter_remove (fun x => 1 + (adjOf edges x).length) v uni vis
            (hinv.qsub v k (List.mem_cons_self _ _)) hv
        unfold bfsPotential at hpot ⊢
        simp only [List.length_cons] at hpot
        omega

/-- The initial BFS state of `calculateNodeDepths` satisfies the loop
invariant. -/
theorem bfsInit (nodes : List DependencyNode) (edges : List DependencyEdge) :
    BfsInv edges (rootIdsOf nodes edges) (bfsUniverse nodes edges)
      ((rootIdsOf nodes edges).map (fun r => (r, 0))) []
      (fun x => if x ∈ rootIdsOf nodes edges then some 0 else none) where
  sound := by
    intro v k hv
    by_cases h : v ∈ rootIdsOf nodes edges
    · rw [if_pos h] at hv
      have h0 : (0 : Nat) = k := Option.some.inj hv
      subst h0
      exact h
    · rw [if_neg h] at hv
      cases hv
  rootsZero := fun r hr => if_pos hr
  dom := by
    intro v
    constructor
    · intro hv
      by_cases h : v ∈ rootIdsOf nodes edges
      · exact Or.inr ⟨0, List.mem_map.mpr ⟨v, h, rfl⟩⟩
      · rw [if_neg h] at hv
        cases hv
    · rintro (h | ⟨k, hk⟩)
      · cases h
      · obtain ⟨r, hr, heq⟩ := List.mem_map.mp hk
        have h1 : r = v := congrArg Prod.fst heq
        subst h1
        rw [if_pos hr]
        rfl
  qval := by
    intro v k hk _
    obtain ⟨r, hr, heq⟩ := List.mem_map.mp hk
    have h1 : r = v := congrArg Prod.fst heq
    have h2 : (0 : Nat) = k := congrArg Prod.snd heq
    subst h1
    subst h2
    exact if_pos hr
  mono := by
    rw [List.pairwise_map]
    induction rootIdsOf nodes edges with
    | nil => exact List.Pairwise.nil
    | cons a as ihp => exact List.Pairwise.cons (fun b _ => by omega) ihp
  visMin := fun v hv => absurd hv (List.not_mem_nil v)
  visNbr := fun v hv => absurd hv (List.not_mem_nil v)
  qsub := by
    intro v k hk
    obtain ⟨r, hr, heq⟩ := List.mem_map.mp hk
    have h1 : r = v := congrArg Prod.fst heq
    subst h1
    refine List.mem_append_left _ ?_
    unfold rootIdsOf at hr
    obtain ⟨n, hn, rfl⟩ := List.mem_map.mp hr
    exact List.mem_map.mpr ⟨n, (List.mem_filter.mp hn).1, rfl⟩

/-- Exactness of the final BFS depth map: every recorded depth is the
minimum walk length from the never-targeted roots, and exactly the
reachable ids are recorded. -/
theorem bfsResult_correct (nodes : List DependencyNode) (edges : List DependencyEdge) :
    (∀ x kx, bfsResult nodes edges x = some kx →
      reachN edges (rootIdsOf nodes edges) kx x ∧
        ∀ j, reachN edges (rootIdsOf nodes edges) j x → kx ≤ j) ∧
    (∀ j x, reachN edges (rootIdsOf nodes edges) j x →
      (bfsResult nodes edges x).isSome = true) := by
  have huni : ∀ w c, c ∈ adjOf edges w → c ∈ bfsUniverse nodes edges := by
    intro w c hc
    obtain ⟨e, he, _, ht⟩ := mem_adjOf.mp hc
    exact List.mem_append_right _ (List.mem_map.mpr ⟨e, he, ht⟩)
  exact bfsLoop_correct edges (rootIdsOf nodes edges) (bfsUniverse nodes edges) huni
    (bfsPotential (adjOf edges) (bfsUniverse nodes edges) []
      ((rootIdsOf nodes edges).map (fun r => (r, 0))))
    ((rootIdsOf nodes edges).map (fun r => (r, 0))) []
    (fun x => if x ∈ rootIdsOf nodes edges then some 0 else none)
    (bfsInit nodes edges) le_rfl

/-- **C3.**  After depth recomputation, every node of the final list whose
id is never an edge target has depth 0; every node reachable from the
never-targeted roots has depth equal to the minimum number of edges on a
walk from a root to it; and every unreachable node has depth 0. -/
theorem claimC3_theorem (nodes : List DependencyNode) (edges : List DependencyEdge)
    (n : DependencyNode) (hn : n ∈ calculateNodeDepths nodes edges) :
    (n.id ∉ edges.map (fun e => e.target) → n.depth = 0) ∧
    (∀ h : ∃ m, reachN edges (rootIdsOf nodes edges) m n.id, n.depth = Nat.find h) ∧
    ((¬ ∃ m, reachN edges (rootIdsOf nodes edges) m n.id) → n.depth = 0) := by
  obtain ⟨n0, hn0, rfl⟩ := List.mem_map.mp hn
  obtain ⟨hexact, hcomplete⟩ := bfsResult_correct nodes edges
  refine ⟨?_, ?_, ?_⟩
  · intro hroot
    have hR : n0.id ∈ rootIdsOf nodes edges := by
      unfold rootIdsOf
      exact List.mem_map.mpr ⟨n0, List.mem_filter.mpr ⟨hn0, by simpa using hroot⟩, rfl⟩
    have hreach0 : reachN edges (rootIdsOf nodes edges) 0 n0.id := hR
    obtain ⟨kx, hkx⟩ := Option.isSome_iff_exists.mp (hcomplete 0 n0.id hreach0)
    have hmin := (hexact n0.id kx hkx).2 0 hreach0
    show (bfsResult nodes edges n0.id).getD 0 = 0
    rw [hkx]
    simp only [Option.getD_some]
    omega
  · intro h
    obtain ⟨kx, hkx⟩ :=
      Option.isSome_iff_exists.mp (hcomplete (Nat.find h) n0.id (Nat.find_spec h))
    obtain ⟨hr, hmin⟩ := hexact n0.id kx hkx
    show (bfsResult nodes edges n0.id).getD 0 = Nat.find h
    rw [hkx]
    simp only [Option.getD_some]
    exact le_antisymm (hmin (Nat.find h) (Nat.find_spec h)) (Nat.find_min' h hr)
  · intro hnr
    show (bfsResult nodes edges n0.id).getD 0 = 0
    cases hres : bfsResult nodes edges n0.id with
    | none => rfl
    | some kx => exact absurd ⟨kx, (hexact n0.id kx hres).1⟩ hnr

/-- Witness for C3 on the two-node graph `b → a`: `b` is never a target and
gets depth 0, `a` is reachable and gets depth 1 (the minimum walk length). -/
theorem claimC3_witness :
    nodeB1 ∈ calculateNodeDepths [nodeA0, nodeB0] [edgeBA] ∧ nodeB1.depth = 0 ∧
    nodeA1 ∈ calculateNodeDepths [nodeA0, nodeB0] [edgeBA] ∧ nodeA1.depth = 1 := by
  have hmemB : nodeB1 ∈ calculateNodeDepths [nodeA0, nodeB0] [edgeBA] := by decide
  have hmemA : nodeA1 ∈ calculateNodeDepths [nodeA0, nodeB0] [edgeBA] := by decide
  have hB := (claimC3_theorem [nodeA0, nodeB0] [edgeBA] nodeB1 hmemB).1 (by decide)
  have hex : ∃ m, reachN [edgeBA] (rootIdsOf [nodeA0, nodeB0] [edgeBA]) m nodeA1.id :=
    ⟨1, by decide⟩
  have hA := (claimC3_theorem [nodeA0, nodeB0] [edgeBA] nodeA1 hmemA).2.1 hex
  have hfind : Nat.find hex = 1 := by
    rw [Nat.find_eq_iff]
    exact ⟨by decide, by decide⟩
  exact ⟨hmemB, hB, hmemA, hA.trans hfind⟩

end NpmGraph
